import Mathlib

/-!
sqlite-bench: a verification development

Shallow embedding of the statistics, the sample recorder, the
workload-generation core and the write workloads of `sqlite-bench`
(`random.c`, `histogram.c`, `raw.c`, `benchmark.c`) together with theorems
about it.

Conventions of the embedding

* C unsigned integers are natural numbers, reduced `% 2^w` at every place
  where the C expression is evaluated in a `w`-bit unsigned type.
* C `int` values are integers; `int` arithmetic is not wrapped (signed
  overflow is undefined in C and does not occur for the sizes the program
  works with, a pool of about one MiB).
* C `double` values are exact rational numbers, and the arithmetic of the
  histogram is exact.  The single operation that can leave the finite numbers
  on finite exact inputs, the division inside `percentile`, produces a value
  of the type `Dbl`, which adds the two infinities and the not-a-number value
  of IEEE 754.  The product that `compressible_string` converts to `int` is
  rounded to the nearest double (`double_round`), since the conversion
  depends on it.
* A function that can write outside the memory it allocated, or whose
  assertion can fire, returns an `Option`; `none` stands for that event.
* Functions that mutate a structure through a pointer take the old structure
  and return the new one.
-/

namespace SqliteBench

/-! ## random.c : the Lehmer generator -/

/-- The C structure `Random`: one `uint32_t` field. -/
structure Random where
  seed_ : Nat
  deriving DecidableEq

/-- The constant `M = 2147483647L` of `rand_next`, also used by `rand_init`. -/
def rand_M : Nat := 2147483647

/-- The constant `A = 16807` of `rand_next`. -/
def rand_A : Nat := 16807

/-- The function `rand_init`: mask the seed to 31 bits, replace the two bad
seeds `0` and `2147483647` by `1`. -/
def rand_init (s : Nat) : Random :=
  let seed := s &&& 0x7fffffff
  if seed = 0 ∨ seed = 2147483647 then ⟨1⟩ else ⟨seed⟩

/-- The function `rand_next`: the 64-bit product `seed_ * A`, folded as
`(product >> 31) + (product & M)`, stored into the 32-bit field, followed by
one conditional subtraction of `M`.  Returns the new state and the value the
C function returns (the new `seed_`). -/
def rand_next (r : Random) : Random × Nat :=
  let product := (r.seed_ * rand_A) % 2 ^ 64
  let seed := ((product >>> 31) + (product &&& rand_M)) % 2 ^ 32
  let seed := if seed > rand_M then seed - rand_M else seed
  (⟨seed⟩, seed)

/-- The conversion of a C `int` to `uint32_t`. -/
def toUInt32 (n : Int) : Nat := (n % 2 ^ 32).toNat

/-- The function `rand_uniform`: `rand_next(rand_) % n`, the remainder being
taken in `uint32_t`.  The state is advanced first; the value is `none` when
the divisor is zero (the C remainder is then undefined). -/
def rand_uniform (r : Random) (n : Int) : Random × Option Nat :=
  let (r', v) := rand_next r
  (r', if toUInt32 n = 0 then none else some (v % toUInt32 n))

/-- The values returned by `n` successive calls of `rand_next`, first call
first. -/
def rand_draws : Nat → Random → List Nat
  | 0, _ => []
  | n + 1, r => (rand_next r).2 :: rand_draws n (rand_next r).1

/-- One call on a `Random`: `rand_next` or `rand_uniform` with its argument. -/
inductive RandCall where
  | next : RandCall
  | uniform (n : Int) : RandCall
  deriving DecidableEq

/-- The state after one call. -/
def RandCall.apply (r : Random) : RandCall → Random
  | RandCall.next => (rand_next r).1
  | RandCall.uniform n => (rand_uniform r n).1

/-- The state after a sequence of calls, made left to right. -/
def rand_run (r : Random) (calls : List RandCall) : Random :=
  calls.foldl RandCall.apply r

/-- The state invariant of the generator: `1 ≤ seed_ ≤ 2^31 - 2`. -/
def Random.Valid (r : Random) : Prop := 1 ≤ r.seed_ ∧ r.seed_ ≤ 2 ^ 31 - 2

instance (r : Random) : Decidable r.Valid := by
  unfold Random.Valid; infer_instance

/-! ## histogram.c : the latency histogram -/

/-- The macro `kNumBuckets`. -/
def kNumBuckets : Nat := 154

/-- The table `bucket_limit`, entry by entry as in the source; the last entry
`1e200` is the exact number `10^200`. -/
def bucket_limit : List ℚ := [
  1, 2, 3, 4, 5, 6, 7, 8, 9, 10, 12, 14, 16, 18, 20, 25, 30, 35, 40, 45, 50,
  60, 70, 80, 90, 100, 120, 140, 160, 180, 200, 250, 300, 350, 400, 450, 500,
  600, 700, 800, 900, 1000, 1200, 1400, 1600, 1800, 2000, 2500, 3000, 3500,
  4000, 4500, 5000, 6000, 7000, 8000, 9000, 10000, 12000, 14000, 16000,
  18000, 20000, 25000, 30000, 35000, 40000, 45000, 50000, 60000, 70000,
  80000, 90000, 100000, 120000, 140000, 160000, 180000, 200000, 250000,
  300000, 350000, 400000, 450000, 500000, 600000, 700000, 800000, 900000,
  1000000, 1200000, 1400000, 1600000, 1800000, 2000000, 2500000, 3000000,
  3500000, 4000000, 4500000, 5000000, 6000000, 7000000, 8000000, 9000000,
  10000000, 12000000, 14000000, 16000000, 18000000, 20000000, 25000000,
  30000000, 35000000, 40000000, 45000000, 50000000, 60000000, 70000000,
  80000000, 90000000, 100000000, 120000000, 140000000, 160000000, 180000000,
  200000000, 250000000, 300000000, 350000000, 400000000, 450000000,
  500000000, 600000000, 700000000, 800000000, 900000000, 1000000000,
  1200000000, 1400000000, 1600000000, 1800000000, 2000000000, 2500000000.0,
  3000000000.0, 3500000000.0, 4000000000.0, 4500000000.0, 5000000000.0,
  6000000000.0, 7000000000.0, 8000000000.0, 9000000000.0, 1e200]

/-- The array access `bucket_limit[b]` (every access in the source has
`b < kNumBuckets`). -/
def bucket_limit_at (b : Nat) : ℚ := bucket_limit.getD b 0

/-- The C structure `Histogram`. -/
@[ext]
structure Histogram where
  min_ : ℚ
  max_ : ℚ
  num_ : ℚ
  sum_ : ℚ
  sum_squares_ : ℚ
  buckets_ : Fin kNumBuckets → ℚ

/-- The values a C `double` expression can take when its inputs are finite
and arithmetic is exact: a finite number, an infinity, or not-a-number. -/
inductive Dbl where
  | fin (q : ℚ) : Dbl
  | pinf : Dbl
  | ninf : Dbl
  | nan : Dbl
  deriving DecidableEq

/-- The quotient `a / b` of two finite numbers.  A zero divisor is the
positive zero (in `percentile` it is a difference `x - x`), so the quotient is
not-a-number for `a = 0` and an infinity with the sign of `a` otherwise. -/
def Dbl.div (a b : ℚ) : Dbl :=
  if b = 0 then
    if a = 0 then Dbl.nan else if 0 < a then Dbl.pinf else Dbl.ninf
  else Dbl.fin (a / b)

/-- The product `a * x` of a finite number and a `Dbl`. -/
def Dbl.mul (a : ℚ) : Dbl → Dbl
  | Dbl.fin q => Dbl.fin (a * q)
  | Dbl.pinf => if a = 0 then Dbl.nan else if 0 < a then Dbl.pinf else Dbl.ninf
  | Dbl.ninf => if a = 0 then Dbl.nan else if 0 < a then Dbl.ninf else Dbl.pinf
  | Dbl.nan => Dbl.nan

/-- The sum `a + x` of a finite number and a `Dbl`. -/
def Dbl.add (a : ℚ) : Dbl → Dbl
  | Dbl.fin q => Dbl.fin (a + q)
  | Dbl.pinf => Dbl.pinf
  | Dbl.ninf => Dbl.ninf
  | Dbl.nan => Dbl.nan

/-- The comparison `x < a`; every comparison with not-a-number is false. -/
def Dbl.lt (x : Dbl) (a : ℚ) : Bool :=
  match x with
  | Dbl.fin q => decide (q < a)
  | Dbl.pinf => false
  | Dbl.ninf => true
  | Dbl.nan => false

/-- The comparison `x > a`; every comparison with not-a-number is false. -/
def Dbl.gt (x : Dbl) (a : ℚ) : Bool :=
  match x with
  | Dbl.fin q => decide (q > a)
  | Dbl.pinf => true
  | Dbl.ninf => false
  | Dbl.nan => false

/-- The body of `if (sum >= threshold)` in `percentile`, reached at bucket `b`
with the running sum `sum` (which includes bucket `b`): linear interpolation in
the bucket, then the two clamps. -/
def percentile_return (h : Histogram) (threshold : ℚ) (b : Fin kNumBuckets)
    (sum : ℚ) : Dbl :=
  let left_point : ℚ := if b.val = 0 then 0 else bucket_limit_at (b.val - 1)
  let right_point : ℚ := bucket_limit_at b.val
  let left_sum : ℚ := sum - h.buckets_ b
  let right_sum : ℚ := sum
  let pos : Dbl := Dbl.div (threshold - left_sum) (right_sum - left_sum)
  let r : Dbl := Dbl.add left_point (Dbl.mul (right_point - left_point) pos)
  let r : Dbl := if Dbl.lt r h.min_ then Dbl.fin h.min_ else r
  let r : Dbl := if Dbl.gt r h.max_ then Dbl.fin h.max_ else r
  r

/-- The `for` loop of `percentile`, entered at bucket `b` with the running
sum `sum` of the buckets below `b`; falls through to `max_`. -/
def percentile_loop (h : Histogram) (threshold : ℚ) (b : Nat) (sum : ℚ) : Dbl :=
  if hb : b < kNumBuckets then
    let sum := sum + h.buckets_ ⟨b, hb⟩
    if sum ≥ threshold then percentile_return h threshold ⟨b, hb⟩ sum
    else percentile_loop h threshold (b + 1) sum
  else Dbl.fin h.max_
termination_by kNumBuckets - b

/-- The function `percentile`. -/
def percentile (h : Histogram) (p : ℚ) : Dbl :=
  let threshold : ℚ := h.num_ * (p / 100)
  percentile_loop h threshold 0 0

/-- The function `median`. -/
def median (h : Histogram) : Dbl := percentile h 50

/-- The function `histogram_clear`. -/
def histogram_clear : Histogram where
  min_ := bucket_limit_at (kNumBuckets - 1)
  max_ := 0
  num_ := 0
  sum_ := 0
  sum_squares_ := 0
  buckets_ := fun _ => 0

/-- The `while` loop of `histogram_add`, entered with index `b`: the index at
which it stops. -/
def histogram_add_loop (value : ℚ) (b : Nat) : Nat :=
  if b < kNumBuckets - 1 ∧ bucket_limit_at b ≤ value then
    histogram_add_loop value (b + 1)
  else b
termination_by kNumBuckets - 1 - b

/-- The bucket index `b` that `histogram_add` computes for `value`. -/
def histogram_add_bucket (value : ℚ) : Nat := histogram_add_loop value 0

/-- The function `histogram_add`. -/
def histogram_add (h : Histogram) (value : ℚ) : Histogram where
  buckets_ := fun i =>
    if i.val = histogram_add_bucket value then h.buckets_ i + 1 else h.buckets_ i
  min_ := if h.min_ > value then value else h.min_
  max_ := if h.max_ < value then value else h.max_
  num_ := h.num_ + 1
  sum_ := h.sum_ + value
  sum_squares_ := h.sum_squares_ + value * value

/-- The function `histogram_merge`: the new value of `*hist_`. -/
def histogram_merge (h other : Histogram) : Histogram where
  min_ := if other.min_ < h.min_ then other.min_ else h.min_
  max_ := if other.max_ > h.max_ then other.max_ else h.max_
  num_ := h.num_ + other.num_
  sum_ := h.sum_ + other.sum_
  sum_squares_ := h.sum_squares_ + other.sum_squares_
  buckets_ := fun b => h.buckets_ b + other.buckets_ b

/-- The lower end that `histogram_to_string` prints for bucket `b`:
`(b == 0) ? 0.0 : bucket_limit[b - 1]`. -/
def bucket_lower (b : Nat) : ℚ := if b = 0 then 0 else bucket_limit_at (b - 1)

/-- The histogram after `histogram_clear` and one `histogram_add` per sample,
in list order. -/
def histogram_of (samples : List ℚ) : Histogram :=
  samples.foldl histogram_add histogram_clear

/-- The histograms the program can build: `histogram_clear`, then any number
of `histogram_add` and `histogram_merge` steps on reachable histograms. -/
inductive Histogram.Reachable : Histogram → Prop where
  | clear : Histogram.Reachable histogram_clear
  | add (h : Histogram) (value : ℚ) :
      Histogram.Reachable h → Histogram.Reachable (histogram_add h value)
  | merge (h other : Histogram) :
      Histogram.Reachable h → Histogram.Reachable other →
      Histogram.Reachable (histogram_merge h other)

/-- The sum of all bucket counts. -/
def bucket_total (h : Histogram) : ℚ := ∑ b : Fin kNumBuckets, h.buckets_ b

/-- The count of bucket `i`, `0` outside the array. -/
def bucket_count (h : Histogram) (i : Nat) : ℚ :=
  if hi : i < kNumBuckets then h.buckets_ ⟨i, hi⟩ else 0

/-- The running sum of `percentile` on entry to bucket `k`: the sum of the
counts of the buckets below `k`. -/
def running_sum (h : Histogram) (k : Nat) : ℚ :=
  ∑ i in Finset.range k, bucket_count h i

/-! ## random.c : the pooled data generator -/

/-- The C structure `RandomGenerator`.  `data_` is the C string the pointer
refers to, given by its bytes before the terminating NUL. -/
structure RandomGenerator where
  data_ : List Nat
  data_size_ : Nat
  pos_ : Int

/-- The conversion of a C `int` to `size_t` (64 bits). -/
def toSizeT (n : Int) : Nat := (n % 2 ^ 64).toNat

/-- The library function `strncpy(dst, src, n)`: the `n` bytes written to
`dst`, where `src` is the source C string (its bytes before the NUL).  Bytes
are copied up to the NUL and the rest of the `n` bytes is filled with NUL. -/
def strncpy (src : List Nat) (n : Nat) : List Nat :=
  src.take n ++ List.replicate (n - src.length) 0

/-- The part of `rand_gen_generate` after the wrap test: advance the cursor,
copy `len` bytes starting at `data_ + pos_ - len`. -/
def rand_gen_copy (g : RandomGenerator) (len : Int) : RandomGenerator × List Nat :=
  let pos := g.pos_ + len
  ({ g with pos_ := pos }, strncpy (g.data_.drop (pos - len).toNat) (toSizeT len))

/-- The function `rand_gen_generate`: the new generator and the `len` bytes
written to the returned buffer, or `none` when the assertion
`len < data_size_` fires. -/
def rand_gen_generate (g : RandomGenerator) (len : Int) :
    Option (RandomGenerator × List Nat) :=
  if toSizeT (g.pos_ + len) > g.data_size_ then
    if toSizeT len < g.data_size_ then some (rand_gen_copy { g with pos_ := 0 } len)
    else none
  else some (rand_gen_copy g len)

/-- The local `variance` of `standard_deviation`, the quantity whose square
root the function returns when `num_` is not zero. -/
def standard_deviation_variance (h : Histogram) : ℚ :=
  (h.sum_squares_ * h.num_ - h.sum_ * h.sum_) / (h.num_ * h.num_)

/-- The function `average`. -/
def average (h : Histogram) : ℚ :=
  if h.num_ = 0 then 0 else h.sum_ / h.num_

/-- The value `left_point + (right_point - left_point) * pos` of `percentile`
at bucket `b` for the threshold `t`, before the clamps, when the bucket count
is not zero. -/
def percentile_interp (h : Histogram) (t : ℚ) (b : Nat) : ℚ :=
  bucket_lower b + (bucket_limit_at b - bucket_lower b)
    * ((t - running_sum h b) / bucket_count h b)

/-- The two clamps of `percentile` on a finite value. -/
def percentile_clamp (h : Histogram) (r : ℚ) : ℚ :=
  if (if r < h.min_ then h.min_ else r) > h.max_ then h.max_
  else (if r < h.min_ then h.min_ else r)

/-! ## random.c : building the pool -/

/-- Rounding of a non-negative number to the nearest integer, ties to even
(the rounding of floating-point arithmetic and of `printf`). -/
def round_half_even (q : ℚ) : Nat :=
  if q - ⌊q⌋₊ < 1 / 2 then ⌊q⌋₊
  else if 1 / 2 < q - ⌊q⌋₊ then ⌊q⌋₊ + 1
  else if ⌊q⌋₊ % 2 = 0 then ⌊q⌋₊ else ⌊q⌋₊ + 1

/-- The `double` an arithmetic operation returns when its exact result is
`q`: the nearest number with a significand of 53 bits, ties to even (results
in the normal range; overflow and subnormal results are outside the model). -/
def double_round (q : ℚ) : ℚ :=
  if q = 0 then 0
  else
    (if q < 0 then -1 else 1)
      * (round_half_even (|q| / 2 ^ (Int.log 2 |q| - 52)) : ℚ) * 2 ^ (Int.log 2 |q| - 52)

/-- The conversion `(int)x` of a finite `double`: truncation toward zero. -/
def double_to_int (x : ℚ) : Int := if 0 ≤ x then ⌊x⌋ else ⌈x⌉

/-- The loop of `random_string` with `n` iterations left: each byte is
`' ' + rand_uniform(rnd, 95)`.  Returns the generator state and the bytes. -/
def random_string_loop : Nat → Random → Random × List Nat
  | 0, rnd => (rnd, [])
  | n + 1, rnd =>
    let dst_i := (32 + ((rand_uniform rnd 95).2).getD 0) % 256
    let rest := random_string_loop n (rand_uniform rnd 95).1
    (rest.1, dst_i :: rest.2)

/-- The function `random_string`: the new state of `rnd` and the string of
`len` bytes. -/
def random_string (rnd : Random) (len : Int) : Random × List Nat :=
  random_string_loop len.toNat rnd

/-- The `while (pos < len)` loop of `compressible_string`: `strcat` the raw
string to `dst` and advance `pos` by its length.  The second test is not in
the source: the raw string has at least one byte (`raw ≥ 1`), which is what
makes the loop end. -/
def compressible_loop (raw_data : List Nat) (len : Nat) (pos : Nat) (dst : List Nat) :
    List Nat :=
  if pos < len ∧ 0 < raw_data.length then
    compressible_loop raw_data len (pos + raw_data.length) (dst ++ raw_data)
  else dst
termination_by len - pos
decreasing_by omega

/-- The function `compressible_string`: the new state of `rnd` and the string
`dst` that the `strcat` calls build (the buffer `malloc`ed for it has
`len + 1` bytes).  `compressed_fraction` is the value of the `double`; the
product is the rounded product of doubles. -/
def compressible_string (rnd : Random) (compressed_fraction : ℚ) (len : Nat) :
    Random × List Nat :=
  let raw : Int := double_to_int (double_round (len * compressed_fraction))
  let raw : Int := if raw < 1 then 1 else raw
  let raw_data := random_string rnd raw
  ((raw_data).1, compressible_loop (raw_data).2 len 0 [])

/-- The size `1048576` of the buffer `rand_gen_init` allocates for `data_`. -/
def rand_gen_capacity : Nat := 1048576

/-- The `while (data_size_ < 1048576)` loop of `rand_gen_init`: append one
piece to `data_` and add its length to `data_size_`.  The second test is not
in the source: a piece has at least one byte, which is what makes the loop
end. -/
def rand_gen_fill (compression_ratio : ℚ) (rnd : Random) (data_ : List Nat)
    (data_size_ : Nat) : List Nat × Nat :=
  if data_size_ < 1048576 ∧ 0 < (compressible_string rnd compression_ratio 100).2.length then
    rand_gen_fill compression_ratio (compressible_string rnd compression_ratio 100).1
      (data_ ++ (compressible_string rnd compression_ratio 100).2)
      (data_size_ + (compressible_string rnd compression_ratio 100).2.length)
  else (data_, data_size_)
termination_by 1048576 - data_size_
decreasing_by omega

/-- The function `rand_gen_init`. -/
def rand_gen_init (compression_ratio : ℚ) : RandomGenerator :=
  let filled := rand_gen_fill compression_ratio (rand_init 301) [] 0
  { data_ := filled.1, data_size_ := filled.2, pos_ := 0 }

/-! ## The C library: formatted output -/

/-- The conversion `%d` of `printf`. -/
def printf_d (n : Int) : List Char :=
  if n < 0 then '-' :: Nat.toDigits 10 n.natAbs else Nat.toDigits 10 n.natAbs

/-- The conversion `%.4f` of `printf` on a finite value: sign, the digits of
the integer part, a point and four digits. -/
def printf_f4 (x : ℚ) : List Char :=
  (if x < 0 then ['-'] else [])
    ++ Nat.toDigits 10 (round_half_even (|x| * 10000) / 10000)
    ++ ['.', Nat.digitChar (round_half_even (|x| * 10000) / 1000 % 10),
        Nat.digitChar (round_half_even (|x| * 10000) / 100 % 10),
        Nat.digitChar (round_half_even (|x| * 10000) / 10 % 10),
        Nat.digitChar (round_half_even (|x| * 10000) % 10)]

/-- The string `snprintf(buf, size, ...)` leaves in `buf` when the complete
output is `text`: at most `size - 1` characters of it. -/
def snprintf (size : Nat) (text : List Char) : List Char := text.take (size - 1)

/-! ## raw.c : the raw sample recorder -/

/-- The macro `kNumData`. -/
def kNumData : Nat := 1000000

/-- The C structure `Raw`.  `data_` is `none` for the null pointer, otherwise
the cells of the allocated array. -/
structure Raw where
  data_ : Option (List ℚ)
  data_size_ : Nat
  pos_ : Int

/-- The function `raw_calloc`. -/
def raw_calloc (_raw_ : Raw) : Raw :=
  { data_size_ := kNumData, data_ := some (List.replicate kNumData 0), pos_ := 0 }

/-- The function `raw_realloc` (the allocation succeeds): the old cells are
kept, the cells `realloc` adds are read as `0`. -/
def raw_realloc (raw_ : Raw) : Raw :=
  { raw_ with
    data_size_ := (raw_.data_size_ * 2) % 2 ^ 64
    data_ := raw_.data_.map (fun d =>
      d.take ((raw_.data_size_ * 2) % 2 ^ 64)
        ++ List.replicate ((raw_.data_size_ * 2) % 2 ^ 64 - d.length) 0) }

/-- The function `raw_clear`. -/
def raw_clear (raw_ : Raw) : Raw := raw_calloc raw_

/-- The function `raw_add`. -/
def raw_add (raw_ : Raw) (value : ℚ) : Raw :=
  let raw_ := if raw_.data_.isNone then raw_calloc raw_ else raw_
  let raw_ := if raw_.data_size_ < toSizeT (raw_.pos_ + 1) then raw_realloc raw_ else raw_
  { raw_ with
    data_ := raw_.data_.map (fun d => d.set raw_.pos_.toNat value)
    pos_ := raw_.pos_ + 1 }

/-- The `for` loop of `raw_to_string` with `n` iterations left, at index `i`,
with the size `r_size` of the block `r` points to and the text `r` built so
far (the reallocation succeeds).  `none` when `strcat` writes past the end of
the block: the text, the line and the terminating NUL take
`strlen(r) + strlen(buf) + 1` bytes. -/
def raw_to_string_loop (data : List ℚ) :
    Nat → Nat → Nat × List Char → Option (Nat × List Char)
  | 0, _, acc => some acc
  | n + 1, i, (r_size, r) =>
    let buf := snprintf 200 (printf_f4 (data.getD i 0) ++ ['\n'])
    let r_size := if r_size < r.length + buf.length then (r_size * 2) % 2 ^ 64 else r_size
    if r_size < r.length + buf.length + 1 then none
    else raw_to_string_loop data n (i + 1) (r_size, r ++ buf)

/-- The function `raw_to_string`: the text it returns; `none` when it writes
past the end of the block it allocated. -/
def raw_to_string (raw_ : Raw) : Option (List Char) :=
  let raw_ := if raw_.data_.isNone then raw_calloc raw_ else raw_
  (raw_to_string_loop (raw_.data_.getD []) raw_.pos_.toNat 0 (1024, [])).map Prod.snd

/-- The `for` loop of `raw_print` with `n` iterations left, at index `i`,
with the text `out` written so far. -/
def raw_print_loop (data : List ℚ) : Nat → Nat → List Char → List Char
  | 0, _, out => out
  | n + 1, i, out =>
    raw_print_loop data n (i + 1)
      (out ++ (printf_d i ++ [','] ++ printf_f4 (data.getD i 0) ++ ['\n']))

/-- The function `raw_print`: the text it writes to the stream. -/
def raw_print (raw_ : Raw) : List Char :=
  let raw_ := if raw_.data_.isNone then raw_calloc raw_ else raw_
  raw_print_loop (raw_.data_.getD []) raw_.pos_.toNat 0 "num,time\n".toList

/-- The recorder after `raw_clear` and one `raw_add` per value, in list
order. -/
def raw_of (raw_ : Raw) (values : List ℚ) : Raw :=
  values.foldl raw_add (raw_clear raw_)

/-- One line of `raw_to_string`: the value and a newline, cut to the 200-byte
line buffer. -/
def raw_line (v : ℚ) : List Char := snprintf 200 (printf_f4 v ++ ['\n'])

/-- One row of `raw_print`. -/
def raw_row (i : Nat) (v : ℚ) : List Char :=
  printf_d i ++ [','] ++ printf_f4 v ++ ['\n']

/-- The length of the text of `raw_to_string` after the first `i` values. -/
def raw_text_length (values : List ℚ) (i : Nat) : Nat :=
  (((values.take i).map raw_line).flatten).length

/-! ## benchmark.c : the write workloads

The calls on the storage handle are recorded in `ops`, oldest first; every
call is taken to succeed (on an error status the program exits).  The clock,
and with it `start_`, `last_op_finish_` and the histogram `hist_` it feeds,
are outside the model, as are the read workloads. -/

/-- The decimal digits of `k` in a field of `w` characters, padded with
zeros on the left (`k < 10^w`). -/
def zero_padded : Nat → Nat → List Char
  | 0, _ => []
  | w + 1, k => Nat.digitChar (k / 10 ^ w % 10) :: zero_padded w (k % 10 ^ w)

/-- The conversion `%016d` of `printf`: at least 16 characters, zeros between
the sign and the digits. -/
def printf_016d (k : Int) : List Char :=
  if k < 0 then
    if k.natAbs < 10 ^ 15 then '-' :: zero_padded 15 k.natAbs
    else '-' :: Nat.toDigits 10 k.natAbs
  else if k.natAbs < 10 ^ 16 then zero_padded 16 k.natAbs
  else Nat.toDigits 10 k.natAbs

/-- The enumeration `Order`. -/
inductive Order where
  | SEQUENTIAL : Order
  | RANDOM : Order
  deriving DecidableEq

/-- The enumeration `DBState`. -/
inductive DBState where
  | FRESH : DBState
  | EXISTING : DBState
  deriving DecidableEq

/-- A call on the storage handle.  The statement of `sqlite3_exec` is `none`
for the null pointer.  `step_replace` stands for binding key and
value to the `REPLACE` statement, stepping it and resetting it: one upsert;
`step_begin` and `step_end` for stepping and resetting the transaction
statements. -/
inductive StorageOp where
  | sqlite3_close : StorageOp
  | sqlite3_open (db_num : Int) : StorageOp
  | sqlite3_exec (stmt : Option (List Char)) : StorageOp
  | sqlite3_prepare (stmt : List Char) : StorageOp
  | step_begin : StorageOp
  | step_replace (key : List Char) (value : List Nat) : StorageOp
  | step_end : StorageOp
  | sqlite3_finalize : StorageOp
  | sqlite3_wal_checkpoint : StorageOp
  deriving DecidableEq

/-- The flags the write workloads read. -/
structure Flags where
  FLAGS_num : Int
  FLAGS_value_size : Int
  FLAGS_histogram : Bool
  FLAGS_compression_ratio : ℚ
  FLAGS_page_size : Int
  FLAGS_num_pages : Int
  FLAGS_use_existing_db : Bool
  FLAGS_transaction : Bool
  FLAGS_WAL_enabled : Bool

/-- The values `init` of `main.c` gives the flags. -/
def default_flags : Flags where
  FLAGS_num := 1000000
  FLAGS_value_size := 100
  FLAGS_histogram := false
  FLAGS_compression_ratio := 1 / 2
  FLAGS_page_size := 1024
  FLAGS_num_pages := 4096
  FLAGS_use_existing_db := false
  FLAGS_transaction := true
  FLAGS_WAL_enabled := true

/-- The global variables of `benchmark.c` that the write workloads use.
`db_open` says that `db_` is not null, `message_` is `none` for the null
pointer, `ops` records the calls made on the storage handle. -/
structure Benchmark where
  db_open : Bool
  db_num_ : Int
  num_ : Int
  bytes_ : Int
  message_ : Option (List Char)
  gen_ : RandomGenerator
  rand_ : Random
  done_ : Int
  next_report_ : Int
  ops : List StorageOp

/-- The function `benchmark_init` (the removal of old database files is not
modelled). -/
def benchmark_init (f : Flags) : Benchmark where
  db_open := false
  db_num_ := 0
  num_ := f.FLAGS_num
  bytes_ := 0
  message_ := none
  gen_ := rand_gen_init f.FLAGS_compression_ratio
  rand_ := rand_init 301
  done_ := 0
  next_report_ := 0
  ops := []

/-- The function `start`. -/
def start (s : Benchmark) : Benchmark :=
  { s with bytes_ := 0, message_ := some [], done_ := 0, next_report_ := 100 }

/-- The function `finished_single_op`, without the branch that reads the
clock. -/
def finished_single_op (s : Benchmark) : Benchmark :=
  let done_ := s.done_ + 1
  let next_report_ :=
    if done_ ≥ s.next_report_ then
      if s.next_report_ < 1000 then s.next_report_ + 100
      else if s.next_report_ < 5000 then s.next_report_ + 500
      else if s.next_report_ < 10000 then s.next_report_ + 1000
      else if s.next_report_ < 50000 then s.next_report_ + 5000
      else if s.next_report_ < 100000 then s.next_report_ + 10000
      else if s.next_report_ < 500000 then s.next_report_ + 50000
      else s.next_report_ + 100000
    else s.next_report_
  { s with done_ := done_, next_report_ := next_report_ }

/-- The function `wal_checkpoint`. -/
def wal_checkpoint (f : Flags) (s : Benchmark) : Benchmark :=
  if f.FLAGS_WAL_enabled then
    { s with ops := s.ops ++ [StorageOp.sqlite3_wal_checkpoint] }
  else s

/-- The calls `benchmark_open` makes on the storage handle for the database
file number `db_num`.  The loop over `stmt_array` runs over its three
entries, the last of which is `NULL`. -/
def benchmark_open_calls (f : Flags) (db_num : Int) : List StorageOp :=
  [StorageOp.sqlite3_open db_num,
    StorageOp.sqlite3_exec
      (some ("PRAGMA cache_size = ".toList ++ printf_d f.FLAGS_num_pages))]
  ++ (if f.FLAGS_page_size ≠ 1024 then
        [StorageOp.sqlite3_exec
          (some ("PRAGMA page_size = ".toList ++ printf_d f.FLAGS_page_size))]
      else [])
  ++ (if f.FLAGS_WAL_enabled then
        [StorageOp.sqlite3_exec (some "PRAGMA journal_mode = WAL".toList),
         StorageOp.sqlite3_exec (some "PRAGMA wal_autocheckpoint = 4096".toList)]
      else [])
  ++ [StorageOp.sqlite3_exec (some "PRAGMA locking_mode = EXCLUSIVE".toList),
      StorageOp.sqlite3_exec
        (some "CREATE TABLE test (key blob, value blob, PRIMARY KEY (key))".toList),
      StorageOp.sqlite3_exec none]

/-- The function `benchmark_open`; `none` when `assert(db_ == NULL)` fires. -/
def benchmark_open (f : Flags) (s : Benchmark) : Option Benchmark :=
  if s.db_open then none
  else
    some { s with
      db_open := true
      db_num_ := s.db_num_ + 1
      ops := s.ops ++ benchmark_open_calls f (s.db_num_ + 1) }

/-- The body of the inner `for` loop of `benchmark_write` for the indices `i`
and `j`: one value from the generator, the key, one upsert, one finished
operation.  `none` when the assertion of `rand_gen_generate` fires. -/
def write_entry (order : Order) (num_entries value_size : Int) (i j : Int)
    (s : Benchmark) : Option Benchmark :=
  match rand_gen_generate s.gen_ value_size with
  | none => none
  | some generated =>
    let k : Int :=
      match order with
      | Order.SEQUENTIAL => i + j
      | Order.RANDOM => (((rand_next s.rand_).2 % toUInt32 num_entries : Nat) : Int)
    let rand_ : Random :=
      match order with
      | Order.SEQUENTIAL => s.rand_
      | Order.RANDOM => (rand_next s.rand_).1
    let key := snprintf 100 (printf_016d k)
    some (finished_single_op { s with
      gen_ := generated.1
      rand_ := rand_
      bytes_ := s.bytes_ + (value_size + key.length)
      ops := s.ops ++ [StorageOp.step_replace (key.take 16) generated.2] })

/-- The inner `for` loop of `benchmark_write` with `n` iterations left, at
index `j`. -/
def write_batch (order : Order) (num_entries value_size : Int) (i : Int) :
    Nat → Int → Benchmark → Option Benchmark
  | 0, _, s => some s
  | n + 1, j, s =>
    match write_entry order num_entries value_size i j s with
    | none => none
    | some s => write_batch order num_entries value_size i n (j + 1) s

/-- The outer `for` loop of `benchmark_write`, entered at index `i`.  `none`
when an assertion fires, and when the loop cannot end because
`entries_per_batch` is not positive. -/
def write_batches (f : Flags) (order : Order) (num_entries value_size entries_per_batch : Int)
    (i : Int) (s : Benchmark) : Option Benchmark :=
  if i < num_entries then
    if 0 < entries_per_batch then
      let transaction : Bool := f.FLAGS_transaction && decide (entries_per_batch > 1)
      let s := if transaction then { s with ops := s.ops ++ [StorageOp.step_begin] } else s
      match write_batch order num_entries value_size i entries_per_batch.toNat 0 s with
      | none => none
      | some s =>
        let s := if transaction then { s with ops := s.ops ++ [StorageOp.step_end] } else s
        write_batches f order num_entries value_size entries_per_batch
          (i + entries_per_batch) s
    else none
  else some s
termination_by (num_entries - i).toNat
decreasing_by omega

/-- The text `message_` is set to when a fresh workload is skipped. -/
def skip_message : List Char := "skipping (--use_existing_db is true)".toList

/-- The statements `sqlite3_close(db_); db_ = NULL;` of `benchmark_write`. -/
def benchmark_close (s : Benchmark) : Benchmark :=
  { s with db_open := false, ops := s.ops ++ [StorageOp.sqlite3_close] }

/-- The calls of `benchmark_write` before its loop: the synchronous pragma
and the three prepared statements. -/
def benchmark_write_prepare (write_sync : Bool) : List StorageOp :=
  [StorageOp.sqlite3_exec (some (if write_sync then "PRAGMA synchronous = FULL".toList
      else "PRAGMA synchronous = OFF".toList)),
    StorageOp.sqlite3_prepare "REPLACE INTO test (key, value) VALUES (?, ?)".toList,
    StorageOp.sqlite3_prepare "BEGIN TRANSACTION".toList,
    StorageOp.sqlite3_prepare "END TRANSACTION".toList]

/-- The function `benchmark_write`. -/
def benchmark_write (f : Flags) (write_sync : Bool) (order : Order) (state : DBState)
    (num_entries value_size entries_per_batch : Int) (s : Benchmark) : Option Benchmark :=
  if state = DBState.FRESH ∧ f.FLAGS_use_existing_db = true then
    some { s with message_ := some skip_message }
  else
    let opened : Option Benchmark :=
      if state = DBState.FRESH then
        (benchmark_open f (benchmark_close s)).map start
      else some s
    match opened with
    | none => none
    | some s =>
      let s := if num_entries ≠ s.num_ then
          { s with message_ := some ("(".toList ++ printf_d num_entries ++ " ops)".toList) }
        else s
      let s := { s with ops := s.ops ++ benchmark_write_prepare write_sync }
      match write_batches f order num_entries value_size entries_per_batch 0 s with
      | none => none
      | some s =>
        some { s with ops := s.ops
          ++ [StorageOp.sqlite3_finalize, StorageOp.sqlite3_finalize,
              StorageOp.sqlite3_finalize] }

/-- The names of `benchmark_run` that start a write workload. -/
inductive WriteWorkload where
  | fillseq : WriteWorkload
  | fillseqbatch : WriteWorkload
  | fillrandom : WriteWorkload
  | fillrandbatch : WriteWorkload
  | overwrite : WriteWorkload
  | overwritebatch : WriteWorkload
  | fillrandsync : WriteWorkload
  | fillseqsync : WriteWorkload
  | fillrand100K : WriteWorkload
  | fillseq100K : WriteWorkload
  deriving DecidableEq

/-- The name `benchmark_run` compares with. -/
def WriteWorkload.name : WriteWorkload → List Char
  | WriteWorkload.fillseq => "fillseq".toList
  | WriteWorkload.fillseqbatch => "fillseqbatch".toList
  | WriteWorkload.fillrandom => "fillrandom".toList
  | WriteWorkload.fillrandbatch => "fillrandbatch".toList
  | WriteWorkload.overwrite => "overwrite".toList
  | WriteWorkload.overwritebatch => "overwritebatch".toList
  | WriteWorkload.fillrandsync => "fillrandsync".toList
  | WriteWorkload.fillseqsync => "fillseqsync".toList
  | WriteWorkload.fillrand100K => "fillrand100K".toList
  | WriteWorkload.fillseq100K => "fillseq100K".toList

/-- The workloads `benchmark_run` starts with the state `FRESH`. -/
def WriteWorkload.state : WriteWorkload → DBState
  | WriteWorkload.overwrite => DBState.EXISTING
  | WriteWorkload.overwritebatch => DBState.EXISTING
  | _ => DBState.FRESH

/-- One round of the loop of `benchmark_run` for the name of a write
workload, up to the call of `stop`: reset `bytes_`, `start`, the call of
`benchmark_write` with the arguments of that name, `wal_checkpoint`. -/
def benchmark_run_write (f : Flags) (w : WriteWorkload) (s : Benchmark) : Option Benchmark :=
  let s := start { s with bytes_ := 0 }
  let written : Option Benchmark :=
    match w with
    | WriteWorkload.fillseq =>
      benchmark_write f false Order.SEQUENTIAL DBState.FRESH s.num_ f.FLAGS_value_size 1 s
    | WriteWorkload.fillseqbatch =>
      benchmark_write f false Order.SEQUENTIAL DBState.FRESH s.num_ f.FLAGS_value_size 1000 s
    | WriteWorkload.fillrandom =>
      benchmark_write f false Order.RANDOM DBState.FRESH s.num_ f.FLAGS_value_size 1 s
    | WriteWorkload.fillrandbatch =>
      benchmark_write f false Order.RANDOM DBState.FRESH s.num_ f.FLAGS_value_size 1000 s
    | WriteWorkload.overwrite =>
      benchmark_write f false Order.RANDOM DBState.EXISTING s.num_ f.FLAGS_value_size 1 s
    | WriteWorkload.overwritebatch =>
      benchmark_write f false Order.RANDOM DBState.EXISTING s.num_ f.FLAGS_value_size 1000 s
    | WriteWorkload.fillrandsync =>
      benchmark_write f true Order.RANDOM DBState.FRESH (Int.tdiv s.num_ 100)
        f.FLAGS_value_size 1 s
    | WriteWorkload.fillseqsync =>
      benchmark_write f true Order.SEQUENTIAL DBState.FRESH (Int.tdiv s.num_ 100)
        f.FLAGS_value_size 1 s
    | WriteWorkload.fillrand100K =>
      benchmark_write f false Order.RANDOM DBState.FRESH (Int.tdiv s.num_ 1000) (100 * 1000) 1 s
    | WriteWorkload.fillseq100K =>
      benchmark_write f false Order.SEQUENTIAL DBState.FRESH (Int.tdiv s.num_ 1000)
        (100 * 1000) 1 s
  written.map (wal_checkpoint f)

/-- What `stop` takes from outside the model: the length `strlen` finds in
the buffer `malloc` returned for `rate`, the complete rendering of the rate
by `"%6.1f MB/s"`, and the rendering of the mean by `"%11.3f"`. -/
structure StopEnv where
  rate_strlen : Nat
  rate_text : List Char
  micros_text : List Char

/-- The assignments to `message_` in `stop`. -/
def stop_message (env : StopEnv) (bytes_ : Int) (message_ : Option (List Char)) :
    Option (List Char) :=
  if bytes_ > 0 then
    let rate := snprintf env.rate_strlen env.rate_text
    match message_ with
    | some m => if m = [] then some (rate ++ " ".toList ++ m) else some rate
    | none => some rate
  else message_

/-- The conversion `%-12s` of `printf`. -/
def printf_left12 (name : List Char) : List Char :=
  name ++ List.replicate (12 - name.length) ' '

/-- The function `stop`: the new state and the summary line written to the
standard output (the histogram dump under `FLAGS_histogram` is not
modelled). -/
def stop (env : StopEnv) (name : List Char) (s : Benchmark) : Benchmark × List Char :=
  let done_ := if s.done_ < 1 then 1 else s.done_
  let message_ := stop_message env s.bytes_ s.message_
  ({ s with done_ := done_, message_ := message_ },
    printf_left12 name ++ " : ".toList ++ env.micros_text ++ " micros/op;".toList
      ++ (match message_ with
          | none => []
          | some m => if m = [] then [] else " ".toList)
      ++ (match message_ with
          | none => []
          | some m => m)
      ++ "\n".toList)

/-- The keys of the upserts among a list of storage calls, in order. -/
def upsert_keys : List StorageOp → List (List Char)
  | [] => []
  | StorageOp.step_replace key _ :: ops => key :: upsert_keys ops
  | _ :: ops => upsert_keys ops

/-- The state of the generator that `benchmark_write` relies on for values of
`value_size` bytes: the cursor inside the pool, the pool inside `data_`, the
sizes in the range of `int`. -/
def pool_ready (g : RandomGenerator) (value_size : Int) : Prop :=
  0 ≤ g.pos_ ∧ g.pos_ ≤ g.data_size_ ∧ g.data_size_ ≤ g.data_.length ∧
  g.data_size_ < 2 ^ 31 ∧ 0 ≤ value_size ∧ value_size < g.data_size_

/-- The default flags with `--num=n`. -/
def flags_with_num (n : Int) : Flags := { default_flags with FLAGS_num := n }

/-- The default flags with `--use_existing_db=1`. -/
def flags_existing_db : Flags := { default_flags with FLAGS_use_existing_db := true }

/-- The keys of the sequential indices `a, a+1, ..., a+n-1`. -/
def seq_keys (a n : Nat) : List (List Char) :=
  (List.range' a n).map (fun k : Nat => printf_016d (k : Int))

/-! ### Lemmas on the generator -/

theorem rand_mask_lt (s : Nat) : s &&& 0x7fffffff < 2 ^ 31 := by
  have h : (0x7fffffff : Nat) = 2 ^ 31 - 1 := by norm_num
  rw [h, Nat.and_pow_two_sub_one_eq_mod]
  exact Nat.mod_lt _ (by norm_num)

theorem rand_init_valid (s : Nat) : (rand_init s).Valid := by
  have h := rand_mask_lt s
  unfold rand_init Random.Valid
  simp only
  split
  · simp
  · rename_i hne
    simp only [not_or] at hne
    obtain ⟨h0, hM⟩ := hne
    constructor
    · show 1 ≤ s &&& 0x7fffffff
      omega
    · show s &&& 0x7fffffff ≤ 2 ^ 31 - 2
      norm_num at h ⊢
      omega

/-- No multiple of the modulus is reached from a valid state: `16807 = 7^5`
is coprime to `2^31 - 1`. -/
theorem rand_mul_mod_ne_zero (x : Nat) (h1 : 1 ≤ x) (h2 : x ≤ 2 ^ 31 - 2) :
    (x * 16807) % 2147483647 ≠ 0 := by
  intro h
  have hd : 2147483647 ∣ x * 16807 := Nat.dvd_of_mod_eq_zero h
  have hc : Nat.Coprime 2147483647 16807 := by norm_num
  have hx : 2147483647 ∣ x := hc.dvd_of_dvd_mul_right hd
  have := Nat.le_of_dvd (by omega) hx
  norm_num at h2
  omega

/-- On a valid state the fold of `rand_next` is the modular product. -/
theorem rand_next_eq (x : Nat) (h1 : 1 ≤ x) (h2 : x ≤ 2 ^ 31 - 2) :
    rand_next ⟨x⟩ = (⟨(16807 * x) % 2147483647⟩, (16807 * x) % 2147483647) := by
  have hne := rand_mul_mod_ne_zero x h1 h2
  have hM : rand_M = 2 ^ 31 - 1 := by norm_num [rand_M]
  have h2' : x ≤ 2147483646 := by norm_num at h2; exact h2
  have hp : x * 16807 % 2 ^ 64 = x * 16807 := Nat.mod_eq_of_lt (by norm_num; omega)
  have hsplit : x * 16807 = 2147483647 * (x * 16807 / 2 ^ 31)
      + (x * 16807 / 2 ^ 31 + x * 16807 % 2 ^ 31) := by
    have := Nat.div_add_mod (x * 16807) (2 ^ 31)
    norm_num at this ⊢
    omega
  have hmod : (x * 16807 / 2 ^ 31 + x * 16807 % 2 ^ 31) % 2147483647
      = (x * 16807) % 2147483647 := by
    conv_rhs => rw [hsplit]
    rw [Nat.mul_add_mod]
  have hhi : x * 16807 / 2147483648 ≤ 16807 := by
    apply Nat.div_le_of_le_mul
    omega
  have hlo : x * 16807 % 2147483648 < 2147483648 := Nat.mod_lt _ (by norm_num)
  have hqb : x * 16807 / 2 ^ 31 + x * 16807 % 2 ^ 31 < 2147500456 := by
    norm_num
    omega
  generalize hq : x * 16807 / 2 ^ 31 + x * 16807 % 2 ^ 31 = q at hmod hqb
  have hqlt : q < 2 ^ 32 := by norm_num; omega
  have hfold : (if q > 2147483647 then q - 2147483647 else q)
      = (16807 * x) % 2147483647 := by
    rw [Nat.mul_comm 16807 x, ← hmod]
    rw [← hmod] at hne
    clear hq hmod hsplit hp hhi hlo hqlt h2 h2' h1 hM
    split <;> omega
  unfold rand_next
  simp only [rand_A]
  rw [hM, Nat.and_pow_two_sub_one_eq_mod, Nat.shiftRight_eq_div_pow, hp, hq,
    Nat.mod_eq_of_lt hqlt]
  have hM' : (2 ^ 31 - 1 : Nat) = 2147483647 := by norm_num
  rw [hM', hfold]

/-- On a valid state neither the 64-bit product nor the 32-bit store of
`rand_next` truncates. -/
theorem rand_next_fold (x : Nat) (h1 : 1 ≤ x) (h2 : x ≤ 2 ^ 31 - 2) :
    (rand_next ⟨x⟩).2
      = if ((16807 * x) >>> 31) + ((16807 * x) &&& (2 ^ 31 - 1)) > 2 ^ 31 - 1
        then ((16807 * x) >>> 31) + ((16807 * x) &&& (2 ^ 31 - 1)) - (2 ^ 31 - 1)
        else ((16807 * x) >>> 31) + ((16807 * x) &&& (2 ^ 31 - 1)) := by
  have h2' : x ≤ 2147483646 := by norm_num at h2; exact h2
  have hM : rand_M = 2 ^ 31 - 1 := by norm_num [rand_M]
  have hp : x * 16807 % 2 ^ 64 = x * 16807 := Nat.mod_eq_of_lt (by norm_num; omega)
  have hq : (x * 16807 / 2 ^ 31 + x * 16807 % 2 ^ 31) % 2 ^ 32
      = x * 16807 / 2 ^ 31 + x * 16807 % 2 ^ 31 := by
    apply Nat.mod_eq_of_lt
    have hhi : x * 16807 / 2147483648 ≤ 16807 := by
      apply Nat.div_le_of_le_mul
      omega
    have hlo : x * 16807 % 2147483648 < 2147483648 := Nat.mod_lt _ (by norm_num)
    norm_num
    omega
  unfold rand_next
  simp only [rand_A]
  rw [hM, Nat.mul_comm 16807 x, Nat.and_pow_two_sub_one_eq_mod, Nat.shiftRight_eq_div_pow, hp,
    Nat.and_pow_two_sub_one_eq_mod, Nat.shiftRight_eq_div_pow, hq]

theorem rand_next_valid (r : Random) (h : r.Valid) : (rand_next r).1.Valid := by
  obtain ⟨x⟩ := r
  obtain ⟨h1, h2⟩ := h
  have h1' : 1 ≤ x := h1
  have h2' : x ≤ 2 ^ 31 - 2 := h2
  have hne := rand_mul_mod_ne_zero x h1' h2'
  rw [rand_next_eq x h1' h2']
  have hlt : 16807 * x % 2147483647 < 2147483647 := Nat.mod_lt _ (by norm_num)
  rw [Nat.mul_comm] at hne
  constructor
  · show 1 ≤ 16807 * x % 2147483647
    omega
  · show 16807 * x % 2147483647 ≤ 2 ^ 31 - 2
    norm_num
    omega

theorem rand_uniform_state (r : Random) (n : Int) :
    (rand_uniform r n).1 = (rand_next r).1 := rfl

theorem rand_run_valid (calls : List RandCall) (r : Random) (h : r.Valid) :
    (rand_run r calls).Valid := by
  induction calls generalizing r with
  | nil => exact h
  | cons c cs ih =>
    have hstep : (RandCall.apply r c).Valid := by
      cases c with
      | next => exact rand_next_valid r h
      | uniform n => exact rand_next_valid r h
    exact ih _ hstep

theorem rand_draws_get (n : Nat) : ∀ (x j : Nat), 1 ≤ x → x ≤ 2 ^ 31 - 2 → j < n →
    (rand_draws n ⟨x⟩)[j]? = some ((x * 16807 ^ (j + 1)) % 2147483647) := by
  induction n with
  | zero => intro x j _ _ hj; omega
  | succ n ih =>
    intro x j h1 h2 hj
    have hs := rand_next_eq x h1 h2
    have hval := rand_next_valid ⟨x⟩ ⟨h1, h2⟩
    rw [hs] at hval
    cases j with
    | zero =>
      simp only [rand_draws, List.getElem?_cons_zero, hs]
      congr 1
      rw [Nat.mul_comm]
      simp
    | succ j =>
      simp only [rand_draws, List.getElem?_cons_succ, hs]
      rw [ih _ j hval.1 hval.2 (by omega)]
      congr 1
      rw [Nat.mod_mul_mod]
      congr 1
      ring

/-! ### Lemmas on the bucket table -/

theorem bucket_limit_length : bucket_limit.length = kNumBuckets := by rfl

theorem bucket_limit_chain : List.Chain' (· < ·) bucket_limit := by
  unfold bucket_limit
  norm_num [List.chain'_cons]

theorem bucket_limit_lt (i j : Nat) (hij : i < j) (hj : j < kNumBuckets) :
    bucket_limit_at i < bucket_limit_at j := by
  have hp : List.Pairwise (· < ·) bucket_limit :=
    List.chain'_iff_pairwise.mp bucket_limit_chain
  have hj' : j < bucket_limit.length := by rw [bucket_limit_length]; exact hj
  have hi' : i < bucket_limit.length := by omega
  unfold bucket_limit_at
  rw [List.getD_eq_getElem _ _ hi', List.getD_eq_getElem _ _ hj']
  exact List.pairwise_iff_getElem.mp hp i j hi' hj' hij

theorem bucket_limit_first : bucket_limit_at 0 = 1 := by rfl

theorem bucket_limit_last : bucket_limit_at (kNumBuckets - 1) = 1e200 := by rfl

/-! ### Lemmas on `histogram_add` -/

/-- What the `while` loop of `histogram_add` computes, entered at `b0`. -/
theorem histogram_add_loop_spec (value : ℚ) :
    ∀ (n b0 : Nat), kNumBuckets - 1 - b0 = n → b0 ≤ kNumBuckets - 1 →
      b0 ≤ histogram_add_loop value b0 ∧
      histogram_add_loop value b0 ≤ kNumBuckets - 1 ∧
      (∀ j, b0 ≤ j → j < histogram_add_loop value b0 → bucket_limit_at j ≤ value) ∧
      (histogram_add_loop value b0 < kNumBuckets - 1 →
        value < bucket_limit_at (histogram_add_loop value b0)) := by
  intro n
  induction n with
  | zero =>
    intro b0 hn hb
    have hb0 : ¬ b0 < kNumBuckets - 1 := by omega
    rw [histogram_add_loop, if_neg (fun h => hb0 h.1)]
    exact ⟨le_refl _, hb, fun j h1 h2 => absurd h2 (by omega), fun h => absurd h hb0⟩
  | succ n ih =>
    intro b0 hn hb
    rw [histogram_add_loop]
    by_cases hc : b0 < kNumBuckets - 1 ∧ bucket_limit_at b0 ≤ value
    · rw [if_pos hc]
      obtain ⟨h1, h2, h3, h4⟩ := ih (b0 + 1) (by omega) (by omega)
      refine ⟨by omega, h2, ?_, h4⟩
      intro j hj1 hj2
      by_cases hjb : j = b0
      · rw [hjb]; exact hc.2
      · exact h3 j (by omega) hj2
    · rw [if_neg hc]
      refine ⟨le_refl _, hb, fun j h1 h2 => absurd h2 (by omega), ?_⟩
      intro hlt
      by_contra hv
      exact hc ⟨hlt, not_lt.mp hv⟩

theorem histogram_add_bucket_spec (value : ℚ) :
    histogram_add_bucket value ≤ kNumBuckets - 1 ∧
    (∀ j, j < histogram_add_bucket value → bucket_limit_at j ≤ value) ∧
    (histogram_add_bucket value < kNumBuckets - 1 →
      value < bucket_limit_at (histogram_add_bucket value)) := by
  obtain ⟨_, h2, h3, h4⟩ :=
    histogram_add_loop_spec value _ 0 rfl (Nat.zero_le _)
  exact ⟨h2, fun j hj => h3 j (Nat.zero_le _) hj, h4⟩

theorem histogram_add_bucket_lt (value : ℚ) : histogram_add_bucket value < kNumBuckets := by
  have h := (histogram_add_bucket_spec value).1
  unfold kNumBuckets at h ⊢
  omega

/-- The index is determined by the two properties of the loop result. -/
theorem histogram_add_bucket_eq (value : ℚ) (b : Nat) (hb : b ≤ kNumBuckets - 1)
    (hlow : ∀ j, j < b → bucket_limit_at j ≤ value)
    (hup : b < kNumBuckets - 1 → value < bucket_limit_at b) :
    histogram_add_bucket value = b := by
  obtain ⟨h1, h2, h3⟩ := histogram_add_bucket_spec value
  rcases Nat.lt_trichotomy (histogram_add_bucket value) b with h | h | h
  · exact absurd (hlow _ h) (not_le.mpr (h3 (by omega)))
  · exact h
  · exact absurd (h2 _ h) (not_le.mpr (hup (by omega)))

theorem histogram_add_bucket_mono (v w : ℚ) (hvw : v ≤ w) :
    histogram_add_bucket v ≤ histogram_add_bucket w := by
  by_contra hlt
  push_neg at hlt
  obtain ⟨h1, h2, _⟩ := histogram_add_bucket_spec v
  obtain ⟨_, _, k3⟩ := histogram_add_bucket_spec w
  have ha := h2 _ hlt
  have hb := k3 (by omega)
  linarith

/-- The sum over all buckets of the indicator of one index is `1`. -/
theorem sum_indicator (b : Nat) (hb : b < kNumBuckets) :
    (∑ i : Fin kNumBuckets, if i.val = b then (1 : ℚ) else 0) = 1 := by
  have h : ∀ i : Fin kNumBuckets, (if i.val = b then (1 : ℚ) else 0)
      = if i = ⟨b, hb⟩ then 1 else 0 := by
    intro i
    simp only [Fin.ext_iff]
  simp only [h, Finset.sum_ite_eq', Finset.mem_univ, if_true]

theorem bucket_total_clear : bucket_total histogram_clear = histogram_clear.num_ := by
  simp [bucket_total, histogram_clear]

theorem bucket_total_add (h : Histogram) (value : ℚ) :
    bucket_total (histogram_add h value) = bucket_total h + 1 := by
  have hb := histogram_add_bucket_lt value
  have hs : ∀ i : Fin kNumBuckets, (histogram_add h value).buckets_ i
      = h.buckets_ i + (if i.val = histogram_add_bucket value then (1 : ℚ) else 0) := by
    intro i
    simp only [histogram_add]
    split <;> simp
  unfold bucket_total
  simp only [hs, Finset.sum_add_distrib, sum_indicator _ hb]

theorem bucket_total_merge (h other : Histogram) :
    bucket_total (histogram_merge h other) = bucket_total h + bucket_total other := by
  simp [bucket_total, histogram_merge, Finset.sum_add_distrib]

theorem reachable_total (h : Histogram) (hr : h.Reachable) : bucket_total h = h.num_ := by
  induction hr with
  | clear => exact bucket_total_clear
  | add h value _ ih => rw [bucket_total_add, ih]; rfl
  | merge h other _ _ ih1 ih2 => rw [bucket_total_merge, ih1, ih2]; rfl


/-! ### Lemmas on `percentile` -/

theorem running_sum_succ (h : Histogram) (b : Nat) (hb : b < kNumBuckets) :
    running_sum h b + h.buckets_ ⟨b, hb⟩ = running_sum h (b + 1) := by
  unfold running_sum
  rw [Finset.sum_range_succ]
  simp [bucket_count, hb]

theorem running_sum_total (h : Histogram) :
    running_sum h kNumBuckets = bucket_total h := by
  unfold running_sum bucket_total
  rw [← Fin.sum_univ_eq_sum_range]
  apply Finset.sum_congr rfl
  intro i _
  simp [bucket_count]

/-- The loop of `percentile` returns at the first bucket whose running sum
reaches the threshold. -/
theorem percentile_loop_reach (h : Histogram) (t : ℚ) (m : Nat) (hm : m < kNumBuckets) :
    ∀ (n b : Nat), m - b = n → b ≤ m →
      (∀ j, b ≤ j → j < m → running_sum h (j + 1) < t) →
      t ≤ running_sum h (m + 1) →
      percentile_loop h t b (running_sum h b)
        = percentile_return h t ⟨m, hm⟩ (running_sum h (m + 1)) := by
  intro n
  induction n with
  | zero =>
    intro b hn hbm _ hreach
    have hb : b = m := by omega
    subst hb
    rw [percentile_loop, dif_pos hm]
    simp only [running_sum_succ, ge_iff_le, hreach, if_true]
  | succ n ih =>
    intro b hn hbm hbelow hreach
    have hb : b < kNumBuckets := by omega
    rw [percentile_loop, dif_pos hb]
    have hlt := hbelow b (le_refl _) (by omega)
    simp only [running_sum_succ, ge_iff_le, not_le.mpr hlt, if_false]
    exact ih (b + 1) (by omega) (by omega) (fun j h1 h2 => hbelow j (by omega) h2) hreach

theorem histogram_of_snoc (l : List ℚ) (x : ℚ) :
    histogram_of (l ++ [x]) = histogram_add (histogram_of l) x := by
  simp [histogram_of, List.foldl_append]

theorem histogram_of_reachable (l : List ℚ) : (histogram_of l).Reachable := by
  induction l using List.reverseRecOn with
  | nil => exact Histogram.Reachable.clear
  | append_singleton l x ih =>
    rw [histogram_of_snoc]
    exact Histogram.Reachable.add _ _ ih

/-- Bucket counts of a histogram built from samples: non-negative, positive
exactly on the buckets some sample fell into. -/
theorem histogram_of_buckets (l : List ℚ) :
    (∀ i, 0 ≤ (histogram_of l).buckets_ i) ∧
    (∀ i, 0 < (histogram_of l).buckets_ i → ∃ s ∈ l, histogram_add_bucket s = i.val) ∧
    (∀ s ∈ l, ∀ i : Fin kNumBuckets, i.val = histogram_add_bucket s →
      0 < (histogram_of l).buckets_ i) := by
  induction l using List.reverseRecOn with
  | nil =>
    refine ⟨fun i => le_refl _, fun i hi => ?_, fun s hs => ?_⟩
    · exact absurd hi (lt_irrefl _)
    · simp at hs
  | append_singleton l x ih =>
    obtain ⟨h1, h2, h3⟩ := ih
    rw [histogram_of_snoc]
    refine ⟨fun i => ?_, fun i hi => ?_, fun s hs i hi => ?_⟩
    · simp only [histogram_add]
      split
      · linarith [h1 i]
      · exact h1 i
    · simp only [histogram_add] at hi
      by_cases hc : i.val = histogram_add_bucket x
      · exact ⟨x, by simp, hc.symm⟩
      · rw [if_neg hc] at hi
        obtain ⟨s, hs, hb⟩ := h2 i hi
        exact ⟨s, by simp [hs], hb⟩
    · simp only [histogram_add]
      by_cases hc : i.val = histogram_add_bucket x
      · rw [if_pos hc]
        linarith [h1 i]
      · rw [if_neg hc]
        rcases List.mem_append.mp hs with hs | hs
        · exact h3 s hs i hi
        · simp at hs
          rw [hs] at hi
          exact absurd hi hc

/-- The fields `min_` and `max_` of a histogram built from samples in
`[0, 1e200]`: bounds of the samples, attained when there is a sample. -/
theorem histogram_of_min_max (l : List ℚ) (hl : ∀ s ∈ l, 0 ≤ s ∧ s ≤ 1e200) :
    (∀ s ∈ l, (histogram_of l).min_ ≤ s ∧ s ≤ (histogram_of l).max_) ∧
    (l ≠ [] → (histogram_of l).max_ ∈ l ∧ (histogram_of l).min_ ∈ l) := by
  induction l using List.reverseRecOn with
  | nil => simp
  | append_singleton l x ih =>
    have hl' : ∀ s ∈ l, 0 ≤ s ∧ s ≤ 1e200 := fun s hs => hl s (by simp [hs])
    have hx : 0 ≤ x ∧ x ≤ 1e200 := hl x (by simp)
    obtain ⟨h1, h2⟩ := ih hl'
    rw [histogram_of_snoc]
    have hmin : (histogram_add (histogram_of l) x).min_
        = if (histogram_of l).min_ > x then x else (histogram_of l).min_ := rfl
    have hmax : (histogram_add (histogram_of l) x).max_
        = if (histogram_of l).max_ < x then x else (histogram_of l).max_ := rfl
    rw [hmin, hmax]
    constructor
    · intro s hs
      rcases List.mem_append.mp hs with hs | hs
      · obtain ⟨ha, hb⟩ := h1 s hs
        constructor
        · split <;> linarith
        · split <;> linarith
      · simp at hs
        subst hs
        constructor
        · split <;> linarith
        · split <;> linarith
    · intro _
      by_cases hnil : l = []
      · subst hnil
        have hc1 : (histogram_of []).max_ = 0 := rfl
        have hc2 : (histogram_of []).min_ = 1e200 := rfl
        rw [hc1, hc2]
        constructor
        · split
          · simp
          · rename_i hn
            have : x = 0 := le_antisymm (not_lt.mp hn) hx.1
            simp [this]
        · split
          · simp
          · rename_i hn
            have : x = 1e200 := le_antisymm hx.2 (not_lt.mp hn)
            simp [this]
      · obtain ⟨ha, hb⟩ := h2 hnil
        constructor
        · split
          · simp
          · simp [ha]
        · split
          · simp
          · simp [hb]


theorem bucket_count_nonneg (l : List ℚ) (i : Nat) : 0 ≤ bucket_count (histogram_of l) i := by
  unfold bucket_count
  split
  · exact (histogram_of_buckets l).1 _
  · exact le_refl _

theorem running_sum_mono (l : List ℚ) (j k : Nat) (hjk : j ≤ k) :
    running_sum (histogram_of l) j ≤ running_sum (histogram_of l) k := by
  unfold running_sum
  apply Finset.sum_le_sum_of_subset_of_nonneg
  · intro i hi
    simp only [Finset.mem_range] at hi ⊢
    omega
  · intro i _ _
    exact bucket_count_nonneg l i

/-- Above the last non-empty bucket the running sum no longer changes. -/
theorem running_sum_const (h : Histogram) (m : Nat)
    (hz : ∀ i, m < i → bucket_count h i = 0) :
    ∀ k, m + 1 ≤ k → running_sum h k = running_sum h (m + 1) := by
  intro k hk
  induction k, hk using Nat.le_induction with
  | base => rfl
  | succ k hk ih =>
    unfold running_sum at ih ⊢
    rw [Finset.sum_range_succ, ih, hz k (by omega), add_zero]

/-- The interpolation at a non-empty bucket reached with the threshold equal
to the running sum gives the upper limit of the bucket. -/
theorem percentile_return_full (h : Histogram) (t : ℚ) (b : Fin kNumBuckets)
    (hpos : 0 < h.buckets_ b) (hmin : h.min_ ≤ h.max_)
    (hmax : h.max_ ≤ bucket_limit_at b.val) :
    percentile_return h t b t = Dbl.fin h.max_ := by
  have hne : h.buckets_ b ≠ 0 := ne_of_gt hpos
  unfold percentile_return
  have h1 : t - (t - h.buckets_ b) = h.buckets_ b := by ring
  simp only [h1, Dbl.div, if_neg hne, div_self hne, Dbl.mul, Dbl.add, mul_one, Dbl.lt]
  have h2 : ∀ lp : ℚ, lp + (bucket_limit_at b.val - lp) = bucket_limit_at b.val := by
    intro lp; ring
  rw [h2]
  have h3 : ¬ bucket_limit_at b.val < h.min_ := not_lt.mpr (le_trans hmin hmax)
  simp only [h3, decide_False, Bool.false_eq_true, if_false, Dbl.gt]
  by_cases h4 : bucket_limit_at b.val > h.max_
  · simp [h4]
  · have : bucket_limit_at b.val = h.max_ := le_antisymm (not_lt.mp h4) hmax
    simp [this]

theorem percentile_100_eq_max (l : List ℚ) (hne : l ≠ [])
    (hl : ∀ s ∈ l, 0 ≤ s ∧ s ≤ 1e200) :
    percentile (histogram_of l) 100 = Dbl.fin (histogram_of l).max_ := by
  obtain ⟨hb1, hb2, hb3⟩ := histogram_of_buckets l
  obtain ⟨hm1, hm2⟩ := histogram_of_min_max l hl
  obtain ⟨hmaxmem, hminmem⟩ := hm2 hne
  have hm := histogram_add_bucket_lt (histogram_of l).max_
  have hspec := histogram_add_bucket_spec (histogram_of l).max_
  generalize hmdef : histogram_add_bucket (histogram_of l).max_ = m at hm hspec
  have hpos : 0 < (histogram_of l).buckets_ ⟨m, hm⟩ :=
    hb3 _ hmaxmem ⟨m, hm⟩ hmdef.symm
  have hzero : ∀ i, m < i → bucket_count (histogram_of l) i = 0 := by
    intro i hi
    unfold bucket_count
    split
    · rename_i hik
      apply le_antisymm _ (hb1 _)
      by_contra hgt
      obtain ⟨s, hs, hsb⟩ := hb2 ⟨i, hik⟩ (not_le.mp hgt)
      have := histogram_add_bucket_mono s _ (hm1 s hs).2
      rw [hmdef, hsb] at this
      simp only at this
      omega
    · rfl
  have htot : running_sum (histogram_of l) (m + 1) = (histogram_of l).num_ := by
    rw [← running_sum_const _ m hzero kNumBuckets (by omega), running_sum_total]
    exact reachable_total _ (histogram_of_reachable l)
  have hbelow : ∀ j, 0 ≤ j → j < m →
      running_sum (histogram_of l) (j + 1) < (histogram_of l).num_ := by
    intro j _ hj
    have h1 := running_sum_mono l (j + 1) m (by omega)
    have h2 := running_sum_succ (histogram_of l) m hm
    rw [← htot]
    linarith
  have hthr : (histogram_of l).num_ * ((100 : ℚ) / 100) = (histogram_of l).num_ := by
    norm_num
  have hstart : running_sum (histogram_of l) 0 = 0 := by simp [running_sum]
  unfold percentile
  simp only [hthr]
  rw [← hstart, percentile_loop_reach _ _ m hm m 0 rfl (Nat.zero_le _) hbelow (le_of_eq htot.symm),
    htot]
  apply percentile_return_full _ _ _ hpos
  · exact le_trans (hm1 _ hmaxmem).1 (hm1 _ hmaxmem).2
  · show (histogram_of l).max_ ≤ bucket_limit_at m
    by_cases hlast : m < kNumBuckets - 1
    · exact le_of_lt (hspec.2.2 hlast)
    · have : m = kNumBuckets - 1 := by omega
      rw [this, bucket_limit_last]
      exact (hl _ hmaxmem).2

theorem histogram_add_bucket_five : histogram_add_bucket 5 = 5 := by
  apply histogram_add_bucket_eq
  · decide
  · intro j hj
    have h4 : bucket_limit_at 4 = 5 := by rfl
    rcases Nat.lt_or_ge j 4 with h | h
    · exact le_of_lt (h4 ▸ bucket_limit_lt j 4 h (by decide))
    · have : j = 4 := by omega
      rw [this, h4]
  · intro _
    have h5 : bucket_limit_at 5 = 6 := by rfl
    rw [h5]; norm_num

theorem percentile_zero_nan :
    percentile (histogram_add histogram_clear 5) 0 = Dbl.nan ∧
    (histogram_add histogram_clear 5).min_ = 5 := by
  have hb : (histogram_add histogram_clear 5).buckets_ ⟨0, by decide⟩ = 0 := by
    simp [histogram_add, histogram_add_bucket_five, histogram_clear]
  constructor
  · unfold percentile
    rw [percentile_loop, dif_pos (by decide)]
    have hnum : (histogram_add histogram_clear 5).num_ = 1 := by
      simp [histogram_add, histogram_clear]
    simp only [percentile_return, hb, hnum]
    simp [Dbl.div, Dbl.mul, Dbl.add, Dbl.lt, Dbl.gt]
  · have : (histogram_add histogram_clear 5).min_
        = if bucket_limit_at (kNumBuckets - 1) > 5 then 5 else bucket_limit_at (kNumBuckets - 1) := rfl
    rw [this, bucket_limit_last]
    norm_num

/-- With a sample below `1` the first bucket is non-empty and `percentile(0)`
is `min_`: the interpolation gives `0`, which the first clamp raises to
`min_`. -/
theorem percentile_0_first_bucket (l : List ℚ) (hl : ∀ s ∈ l, 0 ≤ s ∧ s ≤ 1e200)
    (hlow : ∃ s ∈ l, s < 1) :
    percentile (histogram_of l) 0 = Dbl.fin (histogram_of l).min_ := by
  obtain ⟨s, hs, hs1⟩ := hlow
  have hne : l ≠ [] := List.ne_nil_of_mem hs
  obtain ⟨_, _, hb3⟩ := histogram_of_buckets l
  obtain ⟨hm1, hm2⟩ := histogram_of_min_max l hl
  have hbs : histogram_add_bucket s = 0 := by
    apply histogram_add_bucket_eq
    · exact Nat.zero_le _
    · intro j hj
      exact absurd hj (Nat.not_lt_zero _)
    · intro _
      rw [bucket_limit_first]
      exact hs1
  have hpos : 0 < (histogram_of l).buckets_ ⟨0, by decide⟩ := hb3 s hs _ hbs.symm
  have hmin0 : 0 ≤ (histogram_of l).min_ := (hl _ (hm2 hne).2).1
  have hminmax : (histogram_of l).min_ ≤ (histogram_of l).max_ :=
    le_trans (hm1 s hs).1 (hm1 s hs).2
  have hthr : (histogram_of l).num_ * ((0 : ℚ) / 100) = 0 := by norm_num
  unfold percentile
  simp only [hthr]
  rw [percentile_loop, dif_pos (by decide)]
  simp only [zero_add, ge_iff_le, le_of_lt hpos, if_true]
  unfold percentile_return
  simp only [sub_self, Dbl.div, sub_zero, if_neg (ne_of_gt hpos), zero_div, Dbl.mul, mul_zero,
    Dbl.add, if_true, add_zero, Dbl.lt, Dbl.gt]
  by_cases h0 : 0 < (histogram_of l).min_
  · have h1 : ¬ (histogram_of l).min_ > (histogram_of l).max_ := not_lt.mpr hminmax
    simp [h0, h1]
  · have h1 : (histogram_of l).min_ = 0 := le_antisymm (not_lt.mp h0) hmin0
    have h2 : ¬ (0 : ℚ) > (histogram_of l).max_ := by
      rw [h1] at hminmax
      exact not_lt.mpr hminmax
    simp [h1, h2]

/-! ### Lemmas on `rand_gen_generate` -/

theorem toSizeT_of_nonneg (n : Int) (h0 : 0 ≤ n) (h1 : n < 2 ^ 64) :
    toSizeT n = n.toNat := by
  unfold toSizeT
  rw [Int.emod_eq_of_lt h0 h1]

theorem strncpy_of_le (src : List Nat) (n : Nat) (h : n ≤ src.length) :
    strncpy src n = src.take n := by
  unfold strncpy
  rw [Nat.sub_eq_zero_of_le h]
  simp

/-- The copy step from a cursor `p` at which `len` bytes fit. -/
theorem rand_gen_copy_fit (g : RandomGenerator) (len : Int)
    (hlen0 : 0 ≤ len) (hlen64 : len < 2 ^ 64)
    (hfit : g.pos_.toNat + len.toNat ≤ g.data_.length) :
    rand_gen_copy g len
      = ({ data_ := g.data_, data_size_ := g.data_size_, pos_ := g.pos_ + len },
          (g.data_.drop g.pos_.toNat).take len.toNat) := by
  unfold rand_gen_copy
  simp only [add_sub_cancel_right, toSizeT_of_nonneg len hlen0 hlen64]
  rw [strncpy_of_le]
  rw [List.length_drop]
  omega

/-- The test `pos_ + len > data_size_`, evaluated in `size_t`. -/
theorem rand_gen_wrap_iff (g : RandomGenerator) (len : Int) (hp0 : 0 ≤ g.pos_)
    (hlen0 : 0 ≤ len) (hp : g.pos_ < 2 ^ 31) (hl : len < 2 ^ 31) :
    toSizeT (g.pos_ + len) > g.data_size_ ↔ g.pos_ + len > (g.data_size_ : Int) := by
  rw [toSizeT_of_nonneg _ (by omega) (by norm_num at hp hl ⊢; omega)]
  omega

theorem rand_gen_assert_iff (g : RandomGenerator) (len : Int)
    (hlen0 : 0 ≤ len) (hl : len < 2 ^ 31) :
    toSizeT len < g.data_size_ ↔ len < (g.data_size_ : Int) := by
  rw [toSizeT_of_nonneg _ hlen0 (by norm_num at hl ⊢; omega)]
  omega

/-! ## The claims -/

/-! ### The Lehmer generator and the histogram -/

/-- C1: after `rand_init(s)` for a 32-bit seed `s`, the `k`-th value returned
by `rand_next` (`k ≥ 1`) is `(s0 * 16807^k) mod (2^31 - 1)`, `s0` being the
state stored by `rand_init`; one call replaces a state `x` in `[1, 2^31 - 2]`
by `(16807 * x) mod (2^31 - 1)`, computed as
`(product >> 31) + (product & (2^31 - 1))` with one conditional subtraction,
and returns the new state; for seed 301 the first output is 5058907. -/
theorem rand_next_lehmer_sequence (s k n : Nat) (_hs : s < 2 ^ 32) (hk : 1 ≤ k)
    (hkn : k ≤ n) :
    (rand_draws n (rand_init s))[k - 1]?
      = some (((rand_init s).seed_ * 16807 ^ k) % (2 ^ 31 - 1)) ∧
    (∀ x : Nat, 1 ≤ x → x ≤ 2 ^ 31 - 2 →
      rand_next ⟨x⟩ = (⟨(16807 * x) % (2 ^ 31 - 1)⟩, (16807 * x) % (2 ^ 31 - 1))) ∧
    (∀ x : Nat, 1 ≤ x → x ≤ 2 ^ 31 - 2 →
      (rand_next ⟨x⟩).2
        = if ((16807 * x) >>> 31) + ((16807 * x) &&& (2 ^ 31 - 1)) > 2 ^ 31 - 1
          then ((16807 * x) >>> 31) + ((16807 * x) &&& (2 ^ 31 - 1)) - (2 ^ 31 - 1)
          else ((16807 * x) >>> 31) + ((16807 * x) &&& (2 ^ 31 - 1))) ∧
    rand_draws 1 (rand_init 301) = [5058907] := by
  have hv := rand_init_valid s
  generalize rand_init s = r at hv ⊢
  obtain ⟨x⟩ := r
  refine ⟨?_, ?_, rand_next_fold, by decide⟩
  · have h := rand_draws_get n x (k - 1) hv.1 hv.2 (by omega)
    have hk' : k - 1 + 1 = k := by omega
    rw [h, hk']
    have hM : (2 ^ 31 - 1 : Nat) = 2147483647 := by norm_num
    rw [hM]
  · intro x h1 h2
    exact rand_next_eq x h1 h2

theorem rand_next_lehmer_sequence_witness :
    (rand_draws 3 (rand_init 301))[2 - 1]?
      = some (((rand_init 301).seed_ * 16807 ^ 2) % (2 ^ 31 - 1)) :=
  (rand_next_lehmer_sequence 301 2 3 (by norm_num) (by norm_num) (by norm_num)).1

/-- C2: the state of the generator is always in `[1, 2^31 - 2]`: `rand_init`
stores a seed in that range for every 32-bit input (`0` and `2^31 - 1` are
stored as `1`), `rand_next` and `rand_uniform` keep a state of that range in
the range, so after `rand_init` and any sequence of calls the seed is neither
`0` nor `2^31 - 1`. -/
theorem rand_seed_always_in_range (s : Nat) (_hs : s < 2 ^ 32) (calls : List RandCall) :
    (1 ≤ (rand_init s).seed_ ∧ (rand_init s).seed_ ≤ 2 ^ 31 - 2) ∧
    rand_init 0 = ⟨1⟩ ∧ rand_init (2 ^ 31 - 1) = ⟨1⟩ ∧
    (∀ r : Random, 1 ≤ r.seed_ → r.seed_ ≤ 2 ^ 31 - 2 →
      1 ≤ (rand_next r).1.seed_ ∧ (rand_next r).1.seed_ ≤ 2 ^ 31 - 2) ∧
    (∀ (r : Random) (n : Int), 1 ≤ r.seed_ → r.seed_ ≤ 2 ^ 31 - 2 →
      1 ≤ (rand_uniform r n).1.seed_ ∧ (rand_uniform r n).1.seed_ ≤ 2 ^ 31 - 2) ∧
    (1 ≤ (rand_run (rand_init s) calls).seed_ ∧
      (rand_run (rand_init s) calls).seed_ ≤ 2 ^ 31 - 2) ∧
    (rand_run (rand_init s) calls).seed_ ≠ 0 ∧
    (rand_run (rand_init s) calls).seed_ ≠ 2 ^ 31 - 1 := by
  have hrun := rand_run_valid calls (rand_init s) (rand_init_valid s)
  refine ⟨rand_init_valid s, by decide, by decide, ?_, ?_, hrun, ?_, ?_⟩
  · intro r h1 h2
    exact rand_next_valid r ⟨h1, h2⟩
  · intro r n h1 h2
    exact rand_next_valid r ⟨h1, h2⟩
  · have := hrun.1
    omega
  · have := hrun.2
    norm_num at this ⊢
    omega

theorem rand_seed_always_in_range_witness :
    1 ≤ (rand_run (rand_init 301) [RandCall.next, RandCall.uniform 95]).seed_ ∧
    (rand_run (rand_init 301) [RandCall.next, RandCall.uniform 95]).seed_ ≤ 2 ^ 31 - 2 :=
  (rand_seed_always_in_range 301 (by norm_num)
    [RandCall.next, RandCall.uniform 95]).2.2.2.2.2.1

theorem histogram_add_bucket_boundary (k : Nat) (hk : k + 1 < kNumBuckets) :
    histogram_add_bucket (bucket_limit_at k) = k + 1 := by
  apply histogram_add_bucket_eq
  · omega
  · intro j hj
    rcases Nat.lt_or_ge j k with h | h
    · exact le_of_lt (bucket_limit_lt j k h (by omega))
    · have : j = k := by omega
      rw [this]
  · intro _
    exact bucket_limit_lt k (k + 1) (by omega) hk

theorem histogram_add_bucket_last : histogram_add_bucket 1e200 = 153 := by
  apply histogram_add_bucket_eq
  · decide
  · intro j hj
    rw [← bucket_limit_last]
    exact le_of_lt (bucket_limit_lt j _ hj (by decide))
  · intro h
    exact absurd h (by decide)

/-- C3 as stated fails at the value `1`: bucket `0` is the smallest index whose
limit is `≥ 1`, but `histogram_add` leaves bucket `0` unchanged and increments
bucket `1`. -/
theorem histogram_add_boundary_counterexample :
    bucket_limit_at 0 ≥ 1 ∧
    (histogram_add histogram_clear 1).buckets_ ⟨0, by decide⟩
      = histogram_clear.buckets_ ⟨0, by decide⟩ ∧
    (histogram_add histogram_clear 1).buckets_ ⟨1, by decide⟩
      = histogram_clear.buckets_ ⟨1, by decide⟩ + 1 := by
  have hb : histogram_add_bucket 1 = 1 := by
    have := histogram_add_bucket_boundary 0 (by decide)
    rwa [bucket_limit_first] at this
  refine ⟨by rw [bucket_limit_first], ?_, ?_⟩
  · simp [histogram_add, hb]
  · simp [histogram_add, hb]

/-- C3, amended: for every value `v`, `histogram_add` increments by 1 exactly
one bucket, the one with the smallest index `b` such that
`bucket_limit[b] > v` (the last bucket, index 153, if no bound qualifies); the
boundaries 1, 10 and 1000 are counted in the bucket that starts at the
boundary (indices 1, 10, 42) and the final bound 1e200 in the last bucket. -/
theorem histogram_add_bucket_strict_bound (h : Histogram) (v : ℚ) :
    histogram_add_bucket v ≤ 153 ∧
    (∀ i : Fin kNumBuckets, i.val = histogram_add_bucket v →
      (histogram_add h v).buckets_ i = h.buckets_ i + 1) ∧
    (∀ i : Fin kNumBuckets, i.val ≠ histogram_add_bucket v →
      (histogram_add h v).buckets_ i = h.buckets_ i) ∧
    (∀ j, j < histogram_add_bucket v → ¬ bucket_limit_at j > v) ∧
    (histogram_add_bucket v < 153 → bucket_limit_at (histogram_add_bucket v) > v) ∧
    histogram_add_bucket 1 = 1 ∧ histogram_add_bucket 10 = 10 ∧
    histogram_add_bucket 1000 = 42 ∧ histogram_add_bucket 1e200 = 153 := by
  obtain ⟨h1, h2, h3⟩ := histogram_add_bucket_spec v
  refine ⟨h1, ?_, ?_, fun j hj => not_lt.mpr (h2 j hj), h3, ?_, ?_, ?_,
    histogram_add_bucket_last⟩
  · intro i hi
    simp [histogram_add, hi]
  · intro i hi
    simp [histogram_add, hi]
  · have := histogram_add_bucket_boundary 0 (by decide)
    rwa [bucket_limit_first] at this
  · have := histogram_add_bucket_boundary 9 (by decide)
    have h9 : bucket_limit_at 9 = 10 := by rfl
    rwa [h9] at this
  · have := histogram_add_bucket_boundary 41 (by decide)
    have h41 : bucket_limit_at 41 = 1000 := by rfl
    rwa [h41] at this

/-- C4: for every value `v` with `0 ≤ v < 1e200`, the bucket `b` that
`histogram_add` increments satisfies `lower(b) ≤ v < bucket_limit[b]`, where
`lower` is the lower end `histogram_to_string` prints; the 154 bounds increase
strictly from 1 to 1e200. -/
theorem histogram_add_bucket_half_open (h : Histogram) (v : ℚ) (h0 : 0 ≤ v)
    (h1 : v < 1e200) :
    histogram_add_bucket v < kNumBuckets ∧
    (∀ i : Fin kNumBuckets, i.val = histogram_add_bucket v →
      (histogram_add h v).buckets_ i = h.buckets_ i + 1) ∧
    (∀ i : Fin kNumBuckets, i.val ≠ histogram_add_bucket v →
      (histogram_add h v).buckets_ i = h.buckets_ i) ∧
    bucket_lower (histogram_add_bucket v) ≤ v ∧
    v < bucket_limit_at (histogram_add_bucket v) ∧
    (∀ i j, i < j → j < kNumBuckets → bucket_limit_at i < bucket_limit_at j) ∧
    bucket_limit.length = 154 ∧ bucket_limit_at 0 = 1 ∧ bucket_limit_at 153 = 1e200 := by
  obtain ⟨hs1, hs2, hs3⟩ := histogram_add_bucket_spec v
  refine ⟨histogram_add_bucket_lt v, ?_, ?_, ?_, ?_, bucket_limit_lt, by rfl, by rfl, by rfl⟩
  · intro i hi
    simp [histogram_add, hi]
  · intro i hi
    simp [histogram_add, hi]
  · unfold bucket_lower
    split
    · exact h0
    · exact hs2 _ (by omega)
  · by_cases hlast : histogram_add_bucket v < kNumBuckets - 1
    · exact hs3 hlast
    · have : histogram_add_bucket v = kNumBuckets - 1 := by omega
      rw [this, bucket_limit_last]
      exact h1

theorem histogram_add_bucket_half_open_witness :
    bucket_lower (histogram_add_bucket 5) ≤ 5 ∧
    (5 : ℚ) < bucket_limit_at (histogram_add_bucket 5) :=
  let t := histogram_add_bucket_half_open histogram_clear 5 (by norm_num) (by norm_num)
  ⟨t.2.2.2.1, t.2.2.2.2.1⟩

/-- C5: the sum of the 154 bucket counts equals `num_` after
`histogram_clear`; `histogram_add` preserves the equality for every value and
`histogram_merge` preserves it when both operands satisfy it; hence it holds
in every reachable histogram. -/
theorem bucket_sum_eq_num :
    bucket_total histogram_clear = histogram_clear.num_ ∧
    (∀ (h : Histogram) (v : ℚ), bucket_total h = h.num_ →
      bucket_total (histogram_add h v) = (histogram_add h v).num_) ∧
    (∀ h other : Histogram, bucket_total h = h.num_ → bucket_total other = other.num_ →
      bucket_total (histogram_merge h other) = (histogram_merge h other).num_) ∧
    (∀ h : Histogram, h.Reachable → bucket_total h = h.num_) := by
  refine ⟨bucket_total_clear, ?_, ?_, reachable_total⟩
  · intro h v hh
    rw [bucket_total_add, hh]
    rfl
  · intro h other h1 h2
    rw [bucket_total_merge, h1, h2]
    rfl

/-- C6: for a histogram built by `histogram_clear` and a non-empty sequence of
samples in `[0, 1e200]`, `percentile(100)` is `max_`, which is the largest
sample added. -/
theorem percentile_100_is_max (samples : List ℚ) (hne : samples ≠ [])
    (hl : ∀ s ∈ samples, 0 ≤ s ∧ s ≤ 1e200) :
    percentile (histogram_of samples) 100 = Dbl.fin (histogram_of samples).max_ ∧
    (histogram_of samples).max_ ∈ samples ∧
    (∀ s ∈ samples, s ≤ (histogram_of samples).max_) := by
  obtain ⟨hm1, hm2⟩ := histogram_of_min_max samples hl
  exact ⟨percentile_100_eq_max samples hne hl, (hm2 hne).1, fun s hs => (hm1 s hs).2⟩

theorem percentile_100_is_max_witness :
    percentile (histogram_of [5, 12, 3]) 100 = Dbl.fin (histogram_of [5, 12, 3]).max_ :=
  (percentile_100_is_max [5, 12, 3] (by simp)
    (by intro s hs; simp at hs; rcases hs with rfl | rfl | rfl <;> norm_num)).1

/-- C7 as stated fails: with the single sample `5` the first bucket is
empty, the interpolation of `percentile(0)` divides `0` by `0`, and the result
is not-a-number, while `min_` is `5`. -/
theorem percentile_0_empty_first_bucket :
    percentile (histogram_of [5]) 0 = Dbl.nan ∧
    (histogram_of [5]).min_ = 5 ∧
    percentile (histogram_of [5]) 0 ≠ Dbl.fin (histogram_of [5]).min_ := by
  have h := percentile_zero_nan
  have e : histogram_of [5] = histogram_add histogram_clear 5 := rfl
  rw [e]
  refine ⟨h.1, h.2, ?_⟩
  rw [h.1]
  exact fun hc => Dbl.noConfusion hc

/-- C7, amended: for a histogram built by `histogram_clear` and a sequence of
samples in `[0, 1e200]` of which at least one is below `1`, so that the first
bucket `[0, 1)` is not empty, `percentile(0)` is `min_`, which is the smallest
sample added. -/
theorem percentile_0_is_min (samples : List ℚ)
    (hl : ∀ s ∈ samples, 0 ≤ s ∧ s ≤ 1e200) (hlow : ∃ s ∈ samples, s < 1) :
    percentile (histogram_of samples) 0 = Dbl.fin (histogram_of samples).min_ ∧
    (histogram_of samples).min_ ∈ samples ∧
    (∀ s ∈ samples, (histogram_of samples).min_ ≤ s) := by
  obtain ⟨hm1, hm2⟩ := histogram_of_min_max samples hl
  have hne : samples ≠ [] := by
    obtain ⟨s, hs, _⟩ := hlow
    exact List.ne_nil_of_mem hs
  exact ⟨percentile_0_first_bucket samples hl hlow, (hm2 hne).2, fun s hs => (hm1 s hs).1⟩

theorem percentile_0_is_min_witness :
    percentile (histogram_of [5, 1 / 2, 12]) 0 = Dbl.fin (histogram_of [5, 1 / 2, 12]).min_ ∧
    (∀ s ∈ ([5, 1 / 2, 12] : List ℚ), (histogram_of [5, 1 / 2, 12]).min_ ≤ s) :=
  have t := percentile_0_is_min [5, 1 / 2, 12]
    (by intro s hs; simp at hs; rcases hs with rfl | rfl | rfl <;> norm_num)
    ⟨1 / 2, by simp, by norm_num⟩
  ⟨t.1, t.2.2⟩

/-- C8: `histogram_merge` adds bucket counts, `num_`, `sum_` and
`sum_squares_` and takes the smaller `min_` and the larger `max_`; it is
commutative and associative on every field. -/
theorem histogram_merge_comm_assoc (a b c : Histogram) :
    (∀ i, (histogram_merge a b).buckets_ i = a.buckets_ i + b.buckets_ i) ∧
    (histogram_merge a b).num_ = a.num_ + b.num_ ∧
    (histogram_merge a b).sum_ = a.sum_ + b.sum_ ∧
    (histogram_merge a b).sum_squares_ = a.sum_squares_ + b.sum_squares_ ∧
    (histogram_merge a b).min_ = min a.min_ b.min_ ∧
    (histogram_merge a b).max_ = max a.max_ b.max_ ∧
    histogram_merge a b = histogram_merge b a ∧
    histogram_merge (histogram_merge a b) c = histogram_merge a (histogram_merge b c) := by
  have hmin : ∀ x y : Histogram, (histogram_merge x y).min_ = min x.min_ y.min_ := by
    intro x y
    simp only [histogram_merge]
    split
    · rename_i hlt; exact (min_eq_right (le_of_lt hlt)).symm
    · rename_i hge; exact (min_eq_left (not_lt.mp hge)).symm
  have hmax : ∀ x y : Histogram, (histogram_merge x y).max_ = max x.max_ y.max_ := by
    intro x y
    simp only [histogram_merge]
    split
    · rename_i hlt; exact (max_eq_right (le_of_lt hlt)).symm
    · rename_i hge; exact (max_eq_left (not_lt.mp hge)).symm
  refine ⟨fun i => rfl, rfl, rfl, rfl, hmin a b, hmax a b, ?_, ?_⟩
  · apply Histogram.ext
    · rw [hmin, hmin, min_comm]
    · rw [hmax, hmax, max_comm]
    · exact add_comm _ _
    · exact add_comm _ _
    · exact add_comm _ _
    · funext i; exact add_comm _ _
  · apply Histogram.ext
    · rw [hmin, hmin, hmin, hmin, min_assoc]
    · rw [hmax, hmax, hmax, hmax, max_assoc]
    · exact add_assoc _ _ _
    · exact add_assoc _ _ _
    · exact add_assoc _ _ _
    · funext i; exact add_assoc _ _ _

/-! ### The data generator -/

/-- C9: for a generator with `0 ≤ pos_ ≤ data_size_` (`data_` being a string
that holds the `data_size_` bytes of the pool) and `0 ≤ len < data_size_`,
`rand_gen_generate` returns exactly `len` bytes, the slice `pool[p .. p+len)` with `p = pos_` if
`pos_ + len ≤ data_size_` and `p = 0` otherwise; it leaves
`pos_ = p + len ≤ data_size_` and does not change the pool. -/
theorem rand_gen_generate_slice (g : RandomGenerator) (len : Int)
    (hpos0 : 0 ≤ g.pos_) (hpos : g.pos_ ≤ g.data_size_)
    (hlen0 : 0 ≤ len) (hlen : len < g.data_size_)
    (hsize : g.data_size_ ≤ g.data_.length)
    (hposint : g.pos_ < 2 ^ 31) (hlenint : len < 2 ^ 31) :
    ∃ p : Int, p = (if g.pos_ + len ≤ g.data_size_ then g.pos_ else 0) ∧
      rand_gen_generate g len
        = some ({ data_ := g.data_, data_size_ := g.data_size_, pos_ := p + len },
            (g.data_.drop p.toNat).take len.toNat) ∧
      ((g.data_.drop p.toNat).take len.toNat).length = len.toNat ∧
      0 ≤ p ∧ p + len ≤ g.data_size_ ∧ p.toNat + len.toNat ≤ g.data_.length := by
  have hl64 : len < 2 ^ 64 := by norm_num at hlenint ⊢; omega
  have hw := rand_gen_wrap_iff g len hpos0 hlen0 hposint hlenint
  have ha := rand_gen_assert_iff g len hlen0 hlenint
  by_cases hfit : g.pos_ + len ≤ g.data_size_
  · refine ⟨g.pos_, by rw [if_pos hfit], ?_, ?_, hpos0, hfit, by omega⟩
    · unfold rand_gen_generate
      rw [if_neg (fun h => absurd (hw.mp h) (by omega))]
      rw [rand_gen_copy_fit g len hlen0 hl64 (by omega)]
    · rw [List.length_take, List.length_drop]
      omega
  · refine ⟨0, by rw [if_neg hfit], ?_, ?_, le_refl _, by omega, by simp; omega⟩
    · unfold rand_gen_generate
      rw [if_pos (hw.mpr (by omega)), if_pos (ha.mpr hlen)]
      rw [rand_gen_copy_fit _ len hlen0 hl64 (by simp; omega)]
    · rw [List.length_take, List.length_drop]
      simp
      omega

theorem rand_gen_generate_slice_witness :
    ∃ p : Int, p = (if (3 : Int) + 2 ≤ (4 : Nat) then 3 else 0) ∧
      rand_gen_generate ⟨[97, 98, 99, 100], 4, 3⟩ 2
        = some ({ data_ := [97, 98, 99, 100], data_size_ := 4, pos_ := p + 2 },
            (([97, 98, 99, 100] : List Nat).drop p.toNat).take (2 : Int).toNat) ∧
      ((([97, 98, 99, 100] : List Nat).drop p.toNat).take (2 : Int).toNat).length
        = (2 : Int).toNat ∧
      0 ≤ p ∧ p + 2 ≤ (4 : Nat) ∧ p.toNat + (2 : Int).toNat ≤ 4 :=
  rand_gen_generate_slice ⟨[97, 98, 99, 100], 4, 3⟩ 2 (by decide) (by decide) (by decide)
    (by decide) (by decide) (by decide) (by decide)

/-- C10 as stated fails for `len = data_size_` with the cursor off `0`: the
length does not exceed the pool size, and the assertion fires. -/
theorem rand_gen_generate_full_length_fails :
    ((4 : Int) ≤ (4 : Nat)) ∧
    rand_gen_generate ⟨[97, 98, 99, 100], 4, 1⟩ 4 = none := by
  refine ⟨by decide, ?_⟩
  rfl

/-- C10, amended: for `0 ≤ pos_ ≤ data_size_` and `len ≥ 0`, the assertion of
`rand_gen_generate` fires if and only if `len > data_size_`, or
`len = data_size_` with `pos_ > 0`; the call succeeds when `len < data_size_`
and when `len = data_size_` with `pos_ = 0`. -/
theorem rand_gen_generate_fails_iff (g : RandomGenerator) (len : Int)
    (hpos0 : 0 ≤ g.pos_) (_hpos : g.pos_ ≤ g.data_size_) (hlen0 : 0 ≤ len)
    (hposint : g.pos_ < 2 ^ 31) (hlenint : len < 2 ^ 31) :
    (rand_gen_generate g len = none ↔
      (len > g.data_size_ ∨ (len = g.data_size_ ∧ 0 < g.pos_))) ∧
    (len < g.data_size_ → (rand_gen_generate g len).isSome) ∧
    (len = g.data_size_ → g.pos_ = 0 → (rand_gen_generate g len).isSome) ∧
    (len > g.data_size_ → rand_gen_generate g len = none) ∧
    (len = g.data_size_ → 0 < g.pos_ → rand_gen_generate g len = none) := by
  have hw := rand_gen_wrap_iff g len hpos0 hlen0 hposint hlenint
  have ha := rand_gen_assert_iff g len hlen0 hlenint
  have key : rand_gen_generate g len = none ↔
      (g.pos_ + len > g.data_size_ ∧ ¬ len < g.data_size_) := by
    unfold rand_gen_generate
    by_cases h1 : toSizeT (g.pos_ + len) > g.data_size_
    · rw [if_pos h1]
      by_cases h2 : toSizeT len < g.data_size_
      · rw [if_pos h2]
        simp only [reduceCtorEq, false_iff, not_and, not_not]
        exact fun _ => ha.mp h2
      · rw [if_neg h2]
        simp only [true_iff]
        exact ⟨hw.mp h1, fun h => h2 (ha.mpr h)⟩
    · rw [if_neg h1]
      simp only [reduceCtorEq, false_iff, not_and, not_not]
      exact fun h => absurd (hw.mpr h) h1
  have hsome : ∀ o : Option (RandomGenerator × List Nat), o ≠ none → o.isSome := by
    intro o ho
    cases o with
    | none => exact absurd rfl ho
    | some v => rfl
  refine ⟨?_, ?_, ?_, ?_, ?_⟩
  · rw [key]; constructor
    · intro ⟨h1, h2⟩; omega
    · intro h; constructor <;> omega
  · intro h
    apply hsome
    intro hc
    exact (key.mp hc).2 h
  · intro h hp
    apply hsome
    intro hc
    have := (key.mp hc).1
    omega
  · intro h; rw [key]; constructor <;> omega
  · intro h hp; rw [key]; constructor <;> omega

theorem rand_gen_generate_fails_iff_witness :
    (rand_gen_generate ⟨[97, 98, 99, 100], 4, 0⟩ 4).isSome :=
  (rand_gen_generate_fails_iff ⟨[97, 98, 99, 100], 4, 0⟩ 4 (by decide) (by decide)
    (by decide) (by decide) (by decide)).2.2.1 (by decide) rfl

/-! ### Lemmas on the scan of `percentile` -/

/-- For a threshold in `(0, total]` the scan stops at a bucket with a positive
count, with the running sum below the threshold on entry. -/
theorem percentile_scan (h : Histogram) (t : ℚ) (ht0 : 0 < t)
    (ht : t ≤ bucket_total h) :
    ∃ (b : Nat) (hb : b < kNumBuckets),
      percentile_loop h t 0 0 = percentile_return h t ⟨b, hb⟩ (running_sum h (b + 1)) ∧
      (∀ j, j < b → running_sum h (j + 1) < t) ∧
      t ≤ running_sum h (b + 1) ∧
      running_sum h b < t ∧
      0 < h.buckets_ ⟨b, hb⟩ := by
  have hex : ∃ b, t ≤ running_sum h (b + 1) :=
    ⟨kNumBuckets - 1, by rw [show kNumBuckets - 1 + 1 = kNumBuckets from rfl,
      running_sum_total]; exact ht⟩
  have hfind := Nat.find_spec hex
  have hmin : ∀ j, j < Nat.find hex → running_sum h (j + 1) < t :=
    fun j hj => not_le.mp (Nat.find_min hex hj)
  have hle : Nat.find hex ≤ kNumBuckets - 1 :=
    Nat.find_min' hex (by rw [show kNumBuckets - 1 + 1 = kNumBuckets from rfl,
      running_sum_total]; exact ht)
  generalize Nat.find hex = m at hfind hmin hle
  have hm : m < kNumBuckets := by
    unfold kNumBuckets at hle ⊢
    omega
  have hstart : running_sum h 0 = 0 := by simp [running_sum]
  have hentry : running_sum h m < t := by
    rcases Nat.eq_zero_or_pos m with h0 | h0
    · rw [h0, hstart]; exact ht0
    · have := hmin (m - 1) (by omega)
      rwa [show m - 1 + 1 = m by omega] at this
  refine ⟨m, hm, ?_, hmin, hfind, hentry, ?_⟩
  · rw [← hstart]
    exact percentile_loop_reach h t m hm m 0 rfl (Nat.zero_le _)
      (fun j _ hj => hmin j hj) hfind
  · have := running_sum_succ h m hm
    linarith

theorem percentile_clamp_fin (h : Histogram) (x : ℚ) :
    (if Dbl.gt (if Dbl.lt (Dbl.fin x) h.min_ then Dbl.fin h.min_ else Dbl.fin x) h.max_
      then Dbl.fin h.max_
      else (if Dbl.lt (Dbl.fin x) h.min_ then Dbl.fin h.min_ else Dbl.fin x))
      = Dbl.fin (percentile_clamp h x) := by
  unfold percentile_clamp
  simp only [Dbl.lt, decide_eq_true_eq]
  by_cases h1 : x < h.min_
  · simp only [h1, if_true, Dbl.gt, decide_eq_true_eq]
    by_cases h2 : h.min_ > h.max_
    · simp only [h2, if_true]
    · simp only [h2, if_false]
  · simp only [h1, if_false, Dbl.gt, decide_eq_true_eq]
    by_cases h2 : x > h.max_
    · simp only [h2, if_true]
    · simp only [h2, if_false]

/-- At a bucket with a non-zero count, reached with the running sum of the
scan, `percentile` returns the clamped interpolation. -/
theorem percentile_return_interp (h : Histogram) (t : ℚ) (b : Nat) (hb : b < kNumBuckets)
    (hne : h.buckets_ ⟨b, hb⟩ ≠ 0) :
    percentile_return h t ⟨b, hb⟩ (running_sum h (b + 1))
      = Dbl.fin (percentile_clamp h (percentile_interp h t b)) := by
  have hs := running_sum_succ h b hb
  have hleft : running_sum h (b + 1) - h.buckets_ ⟨b, hb⟩ = running_sum h b := by
    linarith
  have hdiv : running_sum h (b + 1) - running_sum h b = h.buckets_ ⟨b, hb⟩ := by
    linarith
  have hcount : bucket_count h b = h.buckets_ ⟨b, hb⟩ := by
    simp [bucket_count, hb]
  unfold percentile_return
  simp only [hleft, hdiv, Dbl.div, if_neg hne, Dbl.mul, Dbl.add]
  rw [percentile_clamp_fin]
  unfold percentile_interp bucket_lower
  rw [hcount]

theorem bucket_lower_lt_limit (b : Nat) (hb : b < kNumBuckets) :
    bucket_lower b < bucket_limit_at b := by
  unfold bucket_lower
  split
  · rename_i h0
    rw [h0, bucket_limit_first]
    norm_num
  · exact bucket_limit_lt (b - 1) b (by omega) hb

theorem bucket_limit_le_lower (a b : Nat) (hab : a < b) (hb : b < kNumBuckets) :
    bucket_limit_at a ≤ bucket_lower b := by
  unfold bucket_lower
  rw [if_neg (by omega)]
  rcases Nat.lt_or_ge a (b - 1) with h | h
  · exact le_of_lt (bucket_limit_lt a (b - 1) h (by omega))
  · have : a = b - 1 := by omega
    rw [this]

/-- The interpolation lies in the bucket: above the lower end, at most the
limit. -/
theorem percentile_interp_bounds (h : Histogram) (t : ℚ) (b : Nat) (hb : b < kNumBuckets)
    (hentry : running_sum h b < t) (hreach : t ≤ running_sum h (b + 1)) :
    bucket_lower b ≤ percentile_interp h t b ∧
    percentile_interp h t b ≤ bucket_limit_at b ∧
    0 < (t - running_sum h b) / bucket_count h b ∧
    (t - running_sum h b) / bucket_count h b ≤ 1 := by
  have hs := running_sum_succ h b hb
  have hcount : bucket_count h b = h.buckets_ ⟨b, hb⟩ := by
    simp [bucket_count, hb]
  have hpos : 0 < bucket_count h b := by rw [hcount]; linarith
  have hw := bucket_lower_lt_limit b hb
  have hp0 : 0 < (t - running_sum h b) / bucket_count h b :=
    div_pos (by linarith) hpos
  have hp1 : (t - running_sum h b) / bucket_count h b ≤ 1 := by
    rw [div_le_one hpos, hcount]
    linarith
  unfold percentile_interp
  refine ⟨?_, ?_, hp0, hp1⟩
  · have := mul_nonneg (le_of_lt (sub_pos.mpr hw)) (le_of_lt hp0)
    linarith
  · have := mul_le_mul_of_nonneg_left hp1 (le_of_lt (sub_pos.mpr hw))
    linarith

theorem percentile_clamp_mono (h : Histogram) (x y : ℚ) (hxy : x ≤ y) :
    percentile_clamp h x ≤ percentile_clamp h y := by
  unfold percentile_clamp
  split_ifs <;> linarith

theorem percentile_clamp_range (h : Histogram) (x : ℚ) (hmm : h.min_ ≤ h.max_) :
    h.min_ ≤ percentile_clamp h x ∧ percentile_clamp h x ≤ h.max_ := by
  unfold percentile_clamp
  split_ifs <;> constructor <;> linarith


/-- The running aggregates of a histogram built from samples. -/
theorem histogram_of_sums (l : List ℚ) :
    (histogram_of l).num_ = l.length ∧
    (histogram_of l).sum_ = l.sum ∧
    (histogram_of l).sum_squares_ = (l.map (fun x => x * x)).sum := by
  induction l using List.reverseRecOn with
  | nil => simp [histogram_of, histogram_clear]
  | append_singleton l x ih =>
    obtain ⟨h1, h2, h3⟩ := ih
    rw [histogram_of_snoc]
    refine ⟨?_, ?_, ?_⟩
    · show (histogram_of l).num_ + 1 = _
      rw [h1]; simp
    · show (histogram_of l).sum_ + x = _
      rw [h2]; simp
    · show (histogram_of l).sum_squares_ + x * x = _
      rw [h3]; simp

/-- The sum of the squared deviations `(a * x - b)^2` over a list. -/
theorem sum_sq_affine (l : List ℚ) (a b : ℚ) :
    (l.map (fun x => (a * x - b) ^ 2)).sum
      = a ^ 2 * (l.map (fun x => x * x)).sum - 2 * a * b * l.sum + b ^ 2 * l.length := by
  induction l with
  | nil => simp
  | cons x xs ih =>
    simp only [List.map_cons, List.sum_cons, List.length_cons, ih]
    push_cast
    ring

theorem list_sum_sq_nonneg (l : List ℚ) (f : ℚ → ℚ) : 0 ≤ (l.map (fun x => (f x) ^ 2)).sum := by
  apply List.sum_nonneg
  intro y hy
  obtain ⟨x, _, rfl⟩ := List.mem_map.mp hy
  exact sq_nonneg _

/-- Cauchy-Schwarz for a list against the constant one:
`(sum x)^2 ≤ n * sum x^2`. -/
theorem length_mul_sum_sq (l : List ℚ) :
    0 ≤ (l.map (fun x => x * x)).sum * l.length - l.sum * l.sum := by
  rcases Nat.eq_zero_or_pos l.length with h0 | hpos
  · have : l = [] := List.length_eq_zero.mp h0
    simp [this]
  · have hn : (0 : ℚ) < l.length := by exact_mod_cast hpos
    have key := sum_sq_affine l l.length l.sum
    have hnn := list_sum_sq_nonneg l (fun x => (l.length : ℚ) * x - l.sum)
    rw [key] at hnn
    have hfac : (l.length : ℚ) ^ 2 * (l.map (fun x => x * x)).sum
        - 2 * l.length * l.sum * l.sum + l.sum ^ 2 * l.length
        = l.length * ((l.map (fun x => x * x)).sum * l.length - l.sum * l.sum) := by ring
    rw [hfac] at hnn
    exact nonneg_of_mul_nonneg_right hnn hn

/-! ## The claims on percentile and deviation -/

/-- C19: for a histogram built by `histogram_clear` and a non-empty sequence
of samples in `[0, 1e200]`, and `0 < p ≤ q ≤ 100`, `percentile(p)` and
`percentile(q)` are finite, `percentile(p) ≤ percentile(q)`, and both lie in
`[min_, max_]`. -/
theorem percentile_monotone (samples : List ℚ) (p q : ℚ) (hne : samples ≠ [])
    (hl : ∀ s ∈ samples, 0 ≤ s ∧ s ≤ 1e200) (hp0 : 0 < p) (hpq : p ≤ q) (hq : q ≤ 100) :
    ∃ rp rq : ℚ,
      percentile (histogram_of samples) p = Dbl.fin rp ∧
      percentile (histogram_of samples) q = Dbl.fin rq ∧
      rp ≤ rq ∧
      (histogram_of samples).min_ ≤ rp ∧ rp ≤ (histogram_of samples).max_ ∧
      (histogram_of samples).min_ ≤ rq ∧ rq ≤ (histogram_of samples).max_ := by
  obtain ⟨hm1, hm2⟩ := histogram_of_min_max samples hl
  obtain ⟨hmaxmem, _⟩ := hm2 hne
  have hmm : (histogram_of samples).min_ ≤ (histogram_of samples).max_ :=
    le_trans (hm1 _ hmaxmem).1 (hm1 _ hmaxmem).2
  have hsum : bucket_total (histogram_of samples) = (histogram_of samples).num_ :=
    reachable_total _ (histogram_of_reachable samples)
  have hnum : 0 < (histogram_of samples).num_ := by
    rw [(histogram_of_sums samples).1]
    exact_mod_cast List.length_pos.mpr hne
  generalize histogram_of samples = h at hmm hsum hnum
  have hthr : ∀ r : ℚ, 0 < r → r ≤ 100 →
      0 < h.num_ * (r / 100) ∧ h.num_ * (r / 100) ≤ bucket_total h := by
    intro r hr0 hr
    refine ⟨mul_pos hnum (div_pos hr0 (by norm_num)), ?_⟩
    rw [hsum]
    have : r / 100 ≤ 1 := by rw [div_le_one (by norm_num)]; exact hr
    exact mul_le_of_le_one_right (le_of_lt hnum) this
  have htpq : h.num_ * (p / 100) ≤ h.num_ * (q / 100) := by
    apply mul_le_mul_of_nonneg_left _ (le_of_lt hnum)
    exact div_le_div_of_nonneg_right hpq (by norm_num)
  obtain ⟨tp0, tp1⟩ := hthr p hp0 (le_trans hpq hq)
  obtain ⟨tq0, tq1⟩ := hthr q (lt_of_lt_of_le hp0 hpq) hq
  obtain ⟨bp, hbp, hloopp, hbelowp, hreachp, hentryp, hposp⟩ := percentile_scan h _ tp0 tp1
  obtain ⟨bq, hbq, hloopq, hbelowq, hreachq, hentryq, hposq⟩ := percentile_scan h _ tq0 tq1
  have hrp := percentile_return_interp h (h.num_ * (p / 100)) bp hbp (ne_of_gt hposp)
  have hrq := percentile_return_interp h (h.num_ * (q / 100)) bq hbq (ne_of_gt hposq)
  have hbpq : bp ≤ bq := by
    by_contra hlt
    push_neg at hlt
    have := hbelowp bq hlt
    linarith
  obtain ⟨hp_lo, hp_hi, _, _⟩ := percentile_interp_bounds h _ bp hbp hentryp hreachp
  obtain ⟨hq_lo, hq_hi, _, _⟩ := percentile_interp_bounds h _ bq hbq hentryq hreachq
  have hinterp : percentile_interp h (h.num_ * (p / 100)) bp
      ≤ percentile_interp h (h.num_ * (q / 100)) bq := by
    rcases Nat.lt_or_ge bp bq with hlt | hge
    · have := bucket_limit_le_lower bp bq hlt hbq
      linarith
    · have heq : bp = bq := by omega
      subst heq
      have hcount : bucket_count h bp = h.buckets_ ⟨bp, hbp⟩ := by simp [bucket_count, hbp]
      have hw := bucket_lower_lt_limit bp hbp
      unfold percentile_interp
      have hd : (h.num_ * (p / 100) - running_sum h bp) / bucket_count h bp
          ≤ (h.num_ * (q / 100) - running_sum h bp) / bucket_count h bp := by
        apply div_le_div_of_nonneg_right _ (by rw [hcount]; exact le_of_lt hposp)
        linarith
      have := mul_le_mul_of_nonneg_left hd (le_of_lt (sub_pos.mpr hw))
      linarith
  refine ⟨_, _, ?_, ?_, percentile_clamp_mono h _ _ hinterp,
    (percentile_clamp_range h _ hmm).1, (percentile_clamp_range h _ hmm).2,
    (percentile_clamp_range h _ hmm).1, (percentile_clamp_range h _ hmm).2⟩
  · unfold percentile
    exact hloopp.trans hrp
  · unfold percentile
    exact hloopq.trans hrq

theorem percentile_monotone_witness :
    ∃ rp rq : ℚ,
      percentile (histogram_of [5, 12, 3]) 50 = Dbl.fin rp ∧
      percentile (histogram_of [5, 12, 3]) 90 = Dbl.fin rq ∧
      rp ≤ rq ∧
      (histogram_of [5, 12, 3]).min_ ≤ rp ∧ rp ≤ (histogram_of [5, 12, 3]).max_ ∧
      (histogram_of [5, 12, 3]).min_ ≤ rq ∧ rq ≤ (histogram_of [5, 12, 3]).max_ :=
  percentile_monotone [5, 12, 3] 50 90 (by simp)
    (by intro s hs; simp at hs; rcases hs with rfl | rfl | rfl <;> norm_num)
    (by norm_num) (by norm_num) (by norm_num)

/-- C20: for a histogram built by `histogram_clear` and any finite sequence of
`histogram_add` calls, `sum_squares_ * num_ - sum_ * sum_ ≥ 0`, and for
`num_ > 0` the variance of `standard_deviation` is the mean of the squares
minus the square of the mean of the added samples. -/
theorem variance_nonneg (samples : List ℚ) :
    0 ≤ (histogram_of samples).sum_squares_ * (histogram_of samples).num_
        - (histogram_of samples).sum_ * (histogram_of samples).sum_ ∧
    (0 < (histogram_of samples).num_ →
      standard_deviation_variance (histogram_of samples)
        = (samples.map (fun x => x * x)).sum / samples.length
          - (samples.sum / samples.length) ^ 2) ∧
    (0 < (histogram_of samples).num_ →
      standard_deviation_variance (histogram_of samples)
        = (histogram_of samples).sum_squares_ / (histogram_of samples).num_
          - (average (histogram_of samples)) ^ 2) ∧
    (histogram_of samples).num_ = samples.length ∧
    (histogram_of samples).sum_ = samples.sum ∧
    (histogram_of samples).sum_squares_ = (samples.map (fun x => x * x)).sum := by
  obtain ⟨h1, h2, h3⟩ := histogram_of_sums samples
  refine ⟨?_, ?_, ?_, h1, h2, h3⟩
  · rw [h1, h2, h3]
    exact length_mul_sum_sq samples
  · intro hpos
    unfold standard_deviation_variance
    rw [h1] at hpos
    rw [h1, h2, h3]
    have hn : (samples.length : ℚ) ≠ 0 := ne_of_gt hpos
    field_simp
    ring
  · intro hpos
    have hn : (histogram_of samples).num_ ≠ 0 := ne_of_gt hpos
    unfold standard_deviation_variance average
    rw [if_neg hn]
    field_simp
    ring

/-! ### Lemmas on building the pool -/

theorem random_string_loop_length (n : Nat) : ∀ rnd : Random,
    (random_string_loop n rnd).2.length = n := by
  induction n with
  | zero => intro rnd; rfl
  | succ n ih =>
    intro rnd
    simp only [random_string_loop, List.length_cons, ih]

/-- Every byte of a random string is a printable character, in particular not
NUL. -/
theorem random_string_loop_bytes (n : Nat) : ∀ rnd : Random,
    ∀ c ∈ (random_string_loop n rnd).2, 32 ≤ c ∧ c ≤ 126 := by
  induction n with
  | zero => intro rnd c hc; simp [random_string_loop] at hc
  | succ n ih =>
    intro rnd c hc
    simp only [random_string_loop, List.mem_cons] at hc
    rcases hc with rfl | hc
    · have h95 : toUInt32 95 = 95 := by decide
      have hv : ((rand_uniform rnd 95).2).getD 0 < 95 := by
        simp only [rand_uniform, h95]
        simp only [show (95 : Nat) ≠ 0 by decide, if_false, Option.getD_some]
        exact Nat.mod_lt _ (by decide)
      omega
    · exact ih _ c hc

/-- The length of the string the loop of `compressible_string` builds: `dst`
grown by whole copies of the raw string to the first length that reaches
`len`. -/
theorem compressible_loop_length (raw_data : List Nat) (len : Nat)
    (hraw : 0 < raw_data.length) :
    ∀ (n pos : Nat) (dst : List Nat), len - pos = n → dst.length = pos →
      (∃ k, (compressible_loop raw_data len pos dst).length = pos + k * raw_data.length) ∧
      (pos < len → len ≤ (compressible_loop raw_data len pos dst).length ∧
        (compressible_loop raw_data len pos dst).length < len + raw_data.length) ∧
      (len ≤ pos → (compressible_loop raw_data len pos dst).length = pos) := by
  intro n
  induction n using Nat.strong_induction_on with
  | _ n ih =>
    intro pos dst hn hdst
    rw [compressible_loop]
    by_cases hlt : pos < len
    · rw [if_pos ⟨hlt, hraw⟩]
      obtain ⟨⟨k, hk⟩, h2, h3⟩ := ih (len - (pos + raw_data.length)) (by omega)
        (pos + raw_data.length) (dst ++ raw_data) rfl (by simp [hdst])
      refine ⟨⟨k + 1, by rw [hk]; ring⟩, fun _ => ?_, fun h => absurd h (by omega)⟩
      by_cases hnext : pos + raw_data.length < len
      · have := h2 hnext
        omega
      · have := h3 (by omega)
        omega
    · rw [if_neg (fun h => hlt h.1)]
      exact ⟨⟨0, by simp [hdst]⟩, fun h => absurd h hlt, fun _ => hdst⟩

/-- The length of a piece: a multiple of the raw length `max 1 (int)(len *
fraction)`, the first one that reaches `len`. -/
theorem compressible_string_length (rnd : Random) (fraction : ℚ) (len : Nat) (raw : Nat)
    (hraw : (if double_to_int (double_round (len * fraction)) < 1 then 1
      else double_to_int (double_round (len * fraction))) = (raw : Int)) (hpos : 0 < raw) (hlen : 0 < len) :
    (∃ k, (compressible_string rnd fraction len).2.length = k * raw) ∧
    len ≤ (compressible_string rnd fraction len).2.length ∧
    (compressible_string rnd fraction len).2.length < len + raw := by
  unfold compressible_string
  simp only [hraw, random_string, Int.toNat_ofNat]
  have hl := random_string_loop_length raw rnd
  obtain ⟨⟨k, hk⟩, h2, _⟩ := compressible_loop_length (random_string_loop raw rnd).2 len
    (by rw [hl]; exact hpos) _ 0 [] rfl rfl
  rw [hl] at hk h2
  exact ⟨⟨k, by rw [hk]; ring⟩, (h2 hlen).1, (h2 hlen).2⟩

theorem round_half_even_nat (n : Nat) : round_half_even (n : ℚ) = n := by
  unfold round_half_even
  simp

theorem int_log_eq (q : ℚ) (hq : 0 < q) (L : Int) (h1 : (2 : ℚ) ^ L ≤ q)
    (h2 : q < (2 : ℚ) ^ (L + 1)) : Int.log 2 q = L := by
  have a : L ≤ Int.log 2 q :=
    (Int.zpow_le_iff_le_log (by decide) hq).mp (by exact_mod_cast h1)
  have b : Int.log 2 q < L + 1 :=
    (Int.lt_zpow_iff_log_lt (by decide) hq).mp (by exact_mod_cast h2)
  omega

/-- A positive number with at most 53 significant bits is a double: rounding
leaves it unchanged. -/
theorem double_round_exact (q : ℚ) (hq : 0 < q) (L : Int) (h1 : (2 : ℚ) ^ L ≤ q)
    (h2 : q < (2 : ℚ) ^ (L + 1)) (m : Nat) (hm : q / 2 ^ (L - 52) = m) :
    double_round q = q := by
  unfold double_round
  rw [if_neg (ne_of_gt hq), if_neg (not_lt.mpr (le_of_lt hq)), abs_of_pos hq,
    int_log_eq q hq L h1 h2, hm, round_half_even_nat, ← hm]
  have : (2 : ℚ) ^ (L - 52) ≠ 0 := zpow_ne_zero _ (by norm_num)
  field_simp

/-- The product `100 * 0.35` of doubles is `35`: the exact product of `100`
and the double nearest to `0.35` lies below `35` and is rounded up. -/
theorem double_round_035 :
    (100 : ℚ) * (3152519739159347 / 9007199254740992) < 35 ∧
    double_round (100 * (3152519739159347 / 9007199254740992)) = 35 := by
  refine ⟨by norm_num, ?_⟩
  unfold double_round
  have hq : (0 : ℚ) < 100 * (3152519739159347 / 9007199254740992) := by norm_num
  have hf : ⌊(78812993478983675 / 16 : ℚ)⌋₊ = 4925812092436479 := by
    rw [Nat.floor_eq_iff (by norm_num)]
    norm_num
  rw [if_neg (ne_of_gt hq), if_neg (not_lt.mpr (le_of_lt hq)), abs_of_pos hq,
    int_log_eq _ hq 5 (by norm_num) (by norm_num)]
  norm_num [round_half_even, zpow_neg, hf]

theorem compressible_raw_half :
    (if double_to_int (double_round ((100 : Nat) * (1 / 2 : ℚ))) < 1 then 1
      else double_to_int (double_round ((100 : Nat) * (1 / 2 : ℚ)))) = ((50 : Nat) : Int) := by
  have h : ((100 : Nat) : ℚ) * (1 / 2) = 50 := by norm_num
  have hr : double_round 50 = 50 :=
    double_round_exact 50 (by norm_num) 5 (by norm_num) (by norm_num) (50 * 2 ^ 47)
      (by norm_num [zpow_neg])
  have hc : (50 : ℚ) = ((50 : Int) : ℚ) := by norm_num
  rw [h, hr, hc]
  simp [double_to_int]

theorem compressible_raw_three_quarters :
    (if double_to_int (double_round ((100 : Nat) * (3 / 4 : ℚ))) < 1 then 1
      else double_to_int (double_round ((100 : Nat) * (3 / 4 : ℚ)))) = ((75 : Nat) : Int) := by
  have h : ((100 : Nat) : ℚ) * (3 / 4) = 75 := by norm_num
  have hr : double_round 75 = 75 :=
    double_round_exact 75 (by norm_num) 6 (by norm_num) (by norm_num) (75 * 2 ^ 46)
      (by norm_num [zpow_neg])
  have hc : (75 : ℚ) = ((75 : Int) : ℚ) := by norm_num
  rw [h, hr, hc]
  simp [double_to_int]

/-- With the default ratio `0.5` every piece has exactly 100 bytes. -/
theorem compressible_string_half (rnd : Random) :
    (compressible_string rnd (1 / 2) 100).2.length = 100 := by
  obtain ⟨⟨k, hk⟩, h2, h3⟩ :=
    compressible_string_length rnd (1 / 2) 100 50 compressible_raw_half (by decide) (by decide)
  omega

/-- The size the fill loop of `rand_gen_init` ends with, when every piece has
`c` bytes: the first multiple of `c` that reaches the capacity; `data_` has
`data_size_` bytes. -/
theorem rand_gen_fill_size (ratio : ℚ) (c : Nat) (hc : 0 < c)
    (hpiece : ∀ rnd, (compressible_string rnd ratio 100).2.length = c) :
    ∀ (n : Nat) (rnd : Random) (data : List Nat) (size : Nat),
      1048576 - size = n → data.length = size →
      (rand_gen_fill ratio rnd data size).1.length = (rand_gen_fill ratio rnd data size).2 ∧
      (∃ k, (rand_gen_fill ratio rnd data size).2 = size + k * c) ∧
      (size < 1048576 → 1048576 ≤ (rand_gen_fill ratio rnd data size).2 ∧
        (rand_gen_fill ratio rnd data size).2 < 1048576 + c) ∧
      (1048576 ≤ size → (rand_gen_fill ratio rnd data size).2 = size) := by
  intro n
  induction n using Nat.strong_induction_on with
  | _ n ih =>
    intro rnd data size hn hdata
    rw [rand_gen_fill]
    by_cases hlt : size < 1048576
    · rw [if_pos ⟨hlt, by rw [hpiece]; exact hc⟩, hpiece]
      obtain ⟨h1, ⟨k, hk⟩, h2, h3⟩ := ih (1048576 - (size + c)) (by omega)
        (compressible_string rnd ratio 100).1 (data ++ (compressible_string rnd ratio 100).2)
        (size + c) rfl (by simp [hdata, hpiece])
      refine ⟨h1, ⟨k + 1, by rw [hk]; ring⟩, fun _ => ?_, fun h => absurd h (by omega)⟩
      by_cases hnext : size + c < 1048576
      · have := h2 hnext
        omega
      · have := h3 (by omega)
        omega
    · rw [if_neg (fun h => hlt h.1)]
      exact ⟨hdata, ⟨0, by simp⟩, fun h => absurd h hlt, fun _ => rfl⟩

theorem rand_gen_init_fields (ratio : ℚ) :
    (rand_gen_init ratio).data_ = (rand_gen_fill ratio (rand_init 301) [] 0).1 ∧
    (rand_gen_init ratio).data_size_ = (rand_gen_fill ratio (rand_init 301) [] 0).2 ∧
    (rand_gen_init ratio).pos_ = 0 := by
  unfold rand_gen_init
  exact ⟨rfl, rfl, rfl⟩

/-- The generator built with the default ratio `0.5`. -/
theorem rand_gen_init_half :
    (rand_gen_init (1 / 2)).data_size_ = 1048600 ∧
    (rand_gen_init (1 / 2)).data_.length = 1048600 ∧
    (rand_gen_init (1 / 2)).pos_ = 0 := by
  obtain ⟨f1, f2, f3⟩ := rand_gen_init_fields (1 / 2)
  have hzero : (1048576 : Nat) - 0 = 1048576 := Nat.sub_zero _
  obtain ⟨h1, ⟨k, hk⟩, h2, _⟩ := rand_gen_fill_size (1 / 2) 100 (by decide)
    compressible_string_half 1048576 (rand_init 301) [] 0 hzero List.length_nil
  have h3 := h2 (by norm_num)
  have hsize : (rand_gen_fill (1 / 2) (rand_init 301) [] 0).2 = 1048600 := by omega
  rw [f1, f2, h1, hsize]
  exact ⟨rfl, rfl, f3⟩

/-! ## The claims on building the pool -/

/-- C11 fails on the code: with the ratio `0.75` the raw string has 75 bytes
and the piece is two copies of it, 150 bytes, not 100; the loop of
`compressible_string` never truncates. -/
theorem compressible_string_not_truncated :
    (compressible_string (rand_init 301) (3 / 4) 100).2.length = 150 ∧
    (compressible_string (rand_init 301) (3 / 4) 100).2.length ≠ 100 := by
  obtain ⟨⟨k, hk⟩, h2, h3⟩ := compressible_string_length (rand_init 301) (3 / 4) 100 75
    compressible_raw_three_quarters (by decide) (by decide)
  constructor <;> omega

/-- C12 fails on the code: with the default ratio `0.5` the fill loop of
`rand_gen_init` ends with `data_size_ = 1048600`, which is more than the
1048576 bytes allocated for `data_`. -/
theorem rand_gen_init_exceeds_capacity :
    (rand_gen_init (1 / 2)).data_size_ = 1048600 ∧
    (rand_gen_init (1 / 2)).data_.length = 1048600 ∧
    rand_gen_capacity < (rand_gen_init (1 / 2)).data_size_ := by
  obtain ⟨h1, h2, _⟩ := rand_gen_init_half
  refine ⟨h1, h2, ?_⟩
  rw [h1]
  norm_num [rand_gen_capacity]

/-! ### Lemmas on formatted output -/

theorem digitChar_ne_newline (n : Nat) : Nat.digitChar (n % 10) ≠ '\n' := by
  have h : n % 10 < 10 := Nat.mod_lt _ (by decide)
  generalize n % 10 = k at h
  interval_cases k <;> decide

theorem toDigitsCore_no_newline (fuel : Nat) : ∀ (n : Nat) (ds : List Char),
    (∀ c ∈ ds, c ≠ '\n') → ∀ c ∈ Nat.toDigitsCore 10 fuel n ds, c ≠ '\n' := by
  induction fuel with
  | zero => intro n ds hds c hc; exact hds c hc
  | succ fuel ih =>
    intro n ds hds c hc
    have hcons : ∀ c ∈ Nat.digitChar (n % 10) :: ds, c ≠ '\n' := by
      intro c hc
      rcases List.mem_cons.mp hc with rfl | hc
      · exact digitChar_ne_newline _
      · exact hds c hc
    simp only [Nat.toDigitsCore] at hc
    split at hc
    · exact hcons c hc
    · exact ih _ _ hcons c hc

theorem toDigits_no_newline (n : Nat) : ∀ c ∈ Nat.toDigits 10 n, c ≠ '\n' :=
  toDigitsCore_no_newline _ _ _ (fun c hc => absurd hc (List.not_mem_nil c))

theorem printf_d_no_newline (n : Int) : '\n' ∉ printf_d n := by
  intro hmem
  unfold printf_d at hmem
  split at hmem
  · rcases List.mem_cons.mp hmem with h | h
    · exact absurd h (by decide)
    · exact toDigits_no_newline _ _ h rfl
  · exact toDigits_no_newline _ _ hmem rfl

theorem printf_f4_no_newline (x : ℚ) : '\n' ∉ printf_f4 x := by
  intro hmem
  unfold printf_f4 at hmem
  simp only [List.mem_append, List.mem_cons, List.mem_singleton] at hmem
  rcases hmem with (h | h) | h
  · split at h
    · simp at h
    · simp at h
  · exact toDigits_no_newline _ _ h rfl
  · rcases h with h | h | h | h | h | h
    · exact absurd h (by decide)
    · exact digitChar_ne_newline _ h.symm
    · exact digitChar_ne_newline _ h.symm
    · exact digitChar_ne_newline _ h.symm
    · exact digitChar_ne_newline _ h.symm
    · exact absurd h (List.not_mem_nil _)

theorem count_newline_of_not_mem (l : List Char) (h : '\n' ∉ l) : l.count '\n' = 0 :=
  List.count_eq_zero.mpr h

/-- A value whose rendering fits the line buffer gives a complete line. -/
theorem raw_line_fit (v : ℚ) (h : (printf_f4 v).length ≤ 198) :
    raw_line v = printf_f4 v ++ ['\n'] := by
  unfold raw_line snprintf
  apply List.take_of_length_le
  simp
  omega

/-- A value whose rendering does not fit loses its newline. -/
theorem raw_line_cut (v : ℚ) (h : 199 ≤ (printf_f4 v).length) :
    raw_line v = (printf_f4 v).take 199 := by
  unfold raw_line snprintf
  rw [List.take_append_of_le_length h]

theorem raw_line_count (v : ℚ) (h : (printf_f4 v).length ≤ 198) :
    (raw_line v).count '\n' = 1 := by
  rw [raw_line_fit v h, List.count_append, count_newline_of_not_mem _ (printf_f4_no_newline v)]
  rfl

theorem raw_row_count (i : Nat) (v : ℚ) : (raw_row i v).count '\n' = 1 := by
  unfold raw_row
  simp only [List.count_append, count_newline_of_not_mem _ (printf_f4_no_newline v),
    count_newline_of_not_mem _ (printf_d_no_newline i)]
  rfl


/-! ### Lemmas on the raw recorder -/

theorem raw_of_snoc (r0 : Raw) (l : List ℚ) (x : ℚ) :
    raw_of r0 (l ++ [x]) = raw_add (raw_of r0 l) x := by
  simp [raw_of, List.foldl_append]

theorem take_succ_set (d : List ℚ) (n : Nat) (x : ℚ) (hn : n < d.length) :
    (d.set n x).take (n + 1) = d.take n ++ [x] := by
  rw [List.set_eq_take_append_cons_drop, if_pos hn]
  have hlen : (d.take n).length = n := by
    rw [List.length_take]; omega
  rw [show d.take n ++ x :: d.drop (n + 1) = (d.take n ++ [x]) ++ d.drop (n + 1) by simp]
  apply List.take_left'
  simp [hlen]

theorem raw_add_grow (d : List ℚ) (size : Nat) (pos : Int) (x : ℚ)
    (hgrow : size < toSizeT (pos + 1)) :
    raw_add ⟨some d, size, pos⟩ x
      = ⟨some ((d.take (size * 2 % 2 ^ 64)
            ++ List.replicate (size * 2 % 2 ^ 64 - d.length) 0).set pos.toNat x),
          size * 2 % 2 ^ 64, pos + 1⟩ := by
  unfold raw_add
  simp only [Option.isNone_some, Bool.false_eq_true, if_false, hgrow, if_true, raw_realloc,
    Option.map_some']

theorem raw_add_keep (d : List ℚ) (size : Nat) (pos : Int) (x : ℚ)
    (hkeep : ¬ size < toSizeT (pos + 1)) :
    raw_add ⟨some d, size, pos⟩ x = ⟨some (d.set pos.toNat x), size, pos + 1⟩ := by
  unfold raw_add
  simp only [Option.isNone_some, Bool.false_eq_true, if_false, hkeep, Option.map_some']

/-- The state of the recorder after `raw_clear` and the adds of `l`. -/
theorem raw_of_state (r0 : Raw) (l : List ℚ) (hN : l.length < 2 ^ 31) :
    ∃ d size, raw_of r0 l = ⟨some d, size, l.length⟩ ∧ d.length = size ∧
      l.length ≤ size ∧ d.take l.length = l ∧ kNumData ≤ size ∧ size ≤ 2 ^ 32 := by
  induction l using List.reverseRecOn with
  | nil =>
    refine ⟨List.replicate kNumData 0, kNumData, rfl, by simp, Nat.zero_le _, rfl,
      le_refl _, ?_⟩
    decide
  | append_singleton l x ih =>
    have hl : l.length < 2 ^ 31 := by
      simp only [List.length_append, List.length_singleton] at hN
      omega
    obtain ⟨d, size, hr, hlen, hle, htake, hmin, hmax⟩ := ih hl
    rw [raw_of_snoc, hr]
    have hk : kNumData = 1000000 := rfl
    have hcast : (((l ++ [x]).length : Nat) : Int) = (l.length : Int) + 1 := by
      simp
    have hsz : toSizeT ((l.length : Int) + 1) = l.length + 1 := by
      rw [toSizeT_of_nonneg _ (by omega) (by norm_num at hl ⊢; omega)]
      omega
    by_cases hgrow : size < toSizeT ((l.length : Int) + 1)
    · rw [raw_add_grow _ _ _ _ hgrow]
      rw [hsz] at hgrow
      have heq : size = l.length := by omega
      have hmod : size * 2 % 2 ^ 64 = l.length * 2 := by
        rw [heq]
        apply Nat.mod_eq_of_lt
        norm_num at hl ⊢
        omega
      have hdl : d = l := by
        rw [← htake, ← heq, ← hlen, List.take_length]
      subst hdl
      rw [hmod, List.take_of_length_le (by omega)]
      refine ⟨_, _, by rw [hcast], ?_, ?_, ?_, ?_, ?_⟩
      · simp
        omega
      · simp
        omega
      · rw [List.length_append, List.length_singleton, Int.toNat_ofNat,
          take_succ_set _ _ _ (by simp; omega), List.take_left' rfl]
      · omega
      · norm_num at hl ⊢
        omega
    · rw [raw_add_keep _ _ _ _ hgrow]
      rw [hsz] at hgrow
      refine ⟨_, _, by rw [hcast], ?_, ?_, ?_, hmin, hmax⟩
      · simp [hlen]
      · simp
        omega
      · rw [List.length_append, List.length_singleton, Int.toNat_ofNat,
          take_succ_set _ _ _ (by omega), htake]

/-- The loop of `raw_print` appends one row per cell, in index order. -/
theorem raw_print_loop_eq (data : List ℚ) : ∀ (n i : Nat) (out : List Char),
    i + n ≤ data.length →
    raw_print_loop data n i out
      = out ++ ((List.range' i n).map (fun j => raw_row j (data.getD j 0))).flatten := by
  intro n
  induction n with
  | zero => intro i out _; simp [raw_print_loop]
  | succ n ih =>
    intro i out h
    simp only [raw_print_loop]
    rw [ih _ _ (by omega), List.range'_succ, List.map_cons, List.flatten_cons,
      List.append_assoc]
    rfl

theorem count_flatten_lines (l : List ℚ) (f : ℚ → List Char)
    (h : ∀ v ∈ l, (f v).count '\n' = 1) : ((l.map f).flatten).count '\n' = l.length := by
  induction l with
  | nil => rfl
  | cons v vs ih =>
    simp only [List.map_cons, List.flatten_cons, List.count_append, List.length_cons]
    rw [h v (by simp), ih (fun w hw => h w (by simp [hw]))]
    omega

theorem count_flatten_rows (n : Nat) (g : Nat → List Char)
    (h : ∀ j, (g j).count '\n' = 1) : ∀ i, (((List.range' i n).map g).flatten).count '\n' = n := by
  induction n with
  | zero => intro i; rfl
  | succ n ih =>
    intro i
    simp only [List.range'_succ, List.map_cons, List.flatten_cons, List.count_append]
    rw [h i, ih (i + 1)]
    omega


/-- The `%.4f` rendering of `1e200` has 206 characters. -/
theorem printf_f4_sentinel_length : (printf_f4 1e200).length = 206 := by
  have hs : round_half_even (|(1e200 : ℚ)| * 10000) = 10 ^ 204 := by
    norm_num [round_half_even, abs_of_nonneg]
  have hd : (Nat.toDigits 10 (10 ^ 204 / 10000)).length = 201 := by rfl
  unfold printf_f4
  rw [hs]
  simp only [List.length_append, hd]
  norm_num

theorem raw_print_eq (r0 : Raw) (l : List ℚ) (hN : l.length < 2 ^ 31) :
    raw_print (raw_of r0 l)
      = "num,time\n".toList
        ++ ((List.range l.length).map (fun i => raw_row i (l.getD i 0))).flatten := by
  obtain ⟨d, size, hr, hlen, hle, htake, _, _⟩ := raw_of_state r0 l hN
  rw [hr]
  unfold raw_print
  simp only [Option.isNone_some, Bool.false_eq_true, if_false, Option.getD_some, Int.toNat_ofNat]
  rw [raw_print_loop_eq d _ 0 _ (by omega), List.range_eq_range']
  congr 2
  apply List.map_congr_left
  intro j hj
  have hjl : j < l.length := by
    simp only [List.mem_range'_1] at hj
    omega
  congr 1
  rw [List.getD_eq_getElem?_getD, List.getD_eq_getElem?_getD]
  congr 1
  conv_rhs => rw [← htake]
  rw [List.getElem?_take_of_lt hjl]

theorem raw_line_length_le (v : ℚ) : (raw_line v).length ≤ 199 := by
  unfold raw_line snprintf
  rw [List.length_take]
  omega

theorem raw_to_string_loop_succ (data : List ℚ) (n i r_size : Nat) (r : List Char) :
    raw_to_string_loop data (n + 1) i (r_size, r)
      = if (if r_size < r.length + (raw_line (data.getD i 0)).length
              then (r_size * 2) % 2 ^ 64 else r_size)
            < r.length + (raw_line (data.getD i 0)).length + 1 then none
        else raw_to_string_loop data n (i + 1)
          ((if r_size < r.length + (raw_line (data.getD i 0)).length
              then (r_size * 2) % 2 ^ 64 else r_size), r ++ raw_line (data.getD i 0)) := rfl

theorem drop_take_succ (data : List ℚ) (i j : Nat) (hi : i < data.length) :
    (((data.drop i).take (j + 1)).map raw_line).flatten
      = raw_line (data.getD i 0) ++ (((data.drop (i + 1)).take j).map raw_line).flatten := by
  rw [List.drop_eq_getElem_cons hi, List.getD_eq_getElem _ _ hi, List.take_succ_cons,
    List.map_cons, List.flatten_cons]

theorem block_size_ge (k : Nat) : 1024 ≤ 1024 * 2 ^ k := by
  have := Nat.one_le_two_pow (n := k)
  omega

/-- The loop of `raw_to_string` appends one line per cell, in index order, as
long as no line fills the block exactly. -/
theorem raw_to_string_loop_some (data : List ℚ) : ∀ (n i r_size : Nat) (r : List Char),
    i + n ≤ data.length → (∃ k, r_size = 1024 * 2 ^ k) → r.length < r_size →
    r.length + 199 * n < 2 ^ 62 →
    (∀ j k, j < n →
      r.length + ((((data.drop i).take (j + 1)).map raw_line).flatten).length ≠ 1024 * 2 ^ k) →
    ∃ r_size', raw_to_string_loop data n i (r_size, r)
      = some (r_size', r ++ (((data.drop i).take n).map raw_line).flatten) := by
  intro n
  induction n with
  | zero =>
    intro i r_size r _ _ _ _ _
    exact ⟨r_size, by simp [raw_to_string_loop]⟩
  | succ n ih =>
    intro i r_size r hin hpow hlt hbound hroom
    have hi : i < data.length := by omega
    obtain ⟨k, hk⟩ := hpow
    have hge := block_size_ge k
    have hbuf := raw_line_length_le (data.getD i 0)
    have h0 := hroom 0
    simp only [drop_take_succ data i 0 hi, List.take_zero, List.map_nil, List.flatten_nil,
      List.append_nil] at h0
    have hshift : ∀ j k, j < n →
        (r ++ raw_line (data.getD i 0)).length
          + ((((data.drop (i + 1)).take (j + 1)).map raw_line).flatten).length ≠ 1024 * 2 ^ k := by
      intro j k' hj
      have := hroom (j + 1) k' (by omega)
      rw [drop_take_succ data i (j + 1) hi, List.length_append] at this
      rw [List.length_append]
      omega
    rw [raw_to_string_loop_succ, drop_take_succ data i n hi, ← List.append_assoc]
    by_cases hre : r_size < r.length + (raw_line (data.getD i 0)).length
    · have hmod : r_size * 2 % 2 ^ 64 = r_size * 2 := by
        apply Nat.mod_eq_of_lt
        norm_num at hbound ⊢
        omega
      rw [if_pos hre, hmod, if_neg (by omega)]
      apply ih (i + 1) (r_size * 2) _ (by omega) ⟨k + 1, by rw [hk, pow_succ]; ring⟩
        (by rw [List.length_append]; omega) (by rw [List.length_append]; omega) hshift
    · have hne := h0 k (by omega)
      rw [if_neg hre, if_neg (by omega)]
      apply ih (i + 1) r_size _ (by omega) ⟨k, hk⟩
        (by rw [List.length_append]; omega) (by rw [List.length_append]; omega) hshift

/-- The loop of `raw_to_string` writes past the end of its block as soon as a
line fills the block exactly. -/
theorem raw_to_string_loop_none (data : List ℚ) : ∀ (n i r_size : Nat) (r : List Char),
    i + n ≤ data.length → (∃ k, r_size = 1024 * 2 ^ k) → r.length < r_size →
    (r_size = 1024 ∨ r_size < 2 * r.length) →
    r.length + 199 * n < 2 ^ 62 →
    (∃ j k, j < n ∧
      r.length + ((((data.drop i).take (j + 1)).map raw_line).flatten).length = 1024 * 2 ^ k) →
    raw_to_string_loop data n i (r_size, r) = none := by
  intro n
  induction n with
  | zero =>
    intro i r_size r _ _ _ _ _ hex
    obtain ⟨j, _, hj, _⟩ := hex
    omega
  | succ n ih =>
    intro i r_size r hin hpow hlt hhalf hbound hex
    have hi : i < data.length := by omega
    obtain ⟨k, hk⟩ := hpow
    have hge := block_size_ge k
    have hbuf := raw_line_length_le (data.getD i 0)
    rw [raw_to_string_loop_succ]
    obtain ⟨j, k', hj, hfill⟩ := hex
    have hge' := block_size_ge k'
    rcases Nat.eq_zero_or_pos j with hj0 | hjpos
    · subst hj0
      simp only [drop_take_succ data i 0 hi, List.take_zero, List.map_nil,
        List.flatten_nil, List.append_nil] at hfill
      have hre : ¬ r_size < r.length + (raw_line (data.getD i 0)).length := by
        intro hre
        have hkk : k < k' := by
          by_contra hc
          have := Nat.pow_le_pow_right (show 0 < 2 by decide) (not_lt.mp hc)
          omega
        have h2 := Nat.pow_le_pow_right (show 0 < 2 by decide) (show k + 1 ≤ k' from hkk)
        rw [pow_succ] at h2
        omega
      have hle : ¬ r.length + (raw_line (data.getD i 0)).length < r_size := by
        intro hgt
        have hkk : k' < k := by
          by_contra hc
          have := Nat.pow_le_pow_right (show 0 < 2 by decide) (not_lt.mp hc)
          omega
        have h2 := Nat.pow_le_pow_right (show 0 < 2 by decide) (show k' + 1 ≤ k from hkk)
        rw [pow_succ] at h2
        omega
      rw [if_neg hre, if_pos (by omega)]
    · have hnext : ∃ j k, j < n ∧
          (r ++ raw_line (data.getD i 0)).length
            + ((((data.drop (i + 1)).take (j + 1)).map raw_line).flatten).length
              = 1024 * 2 ^ k := by
        refine ⟨j - 1, k', by omega, ?_⟩
        have hj1 : j = (j - 1) + 1 := by omega
        rw [hj1, drop_take_succ data i (j - 1 + 1) hi, List.length_append] at hfill
        rw [List.length_append]
        omega
      by_cases hre : r_size < r.length + (raw_line (data.getD i 0)).length
      · have hmod : r_size * 2 % 2 ^ 64 = r_size * 2 := by
          apply Nat.mod_eq_of_lt
          norm_num at hbound ⊢
          omega
        rw [if_pos hre, hmod, if_neg (by omega)]
        exact ih (i + 1) (r_size * 2) _ (by omega) ⟨k + 1, by rw [hk, pow_succ]; ring⟩
          (by rw [List.length_append]; omega)
          (Or.inr (by rw [List.length_append]; omega))
          (by rw [List.length_append]; omega) hnext
      · rw [if_neg hre]
        by_cases hov : r_size < r.length + (raw_line (data.getD i 0)).length + 1
        · rw [if_pos hov]
        · rw [if_neg hov]
          exact ih (i + 1) r_size _ (by omega) ⟨k, hk⟩
            (by rw [List.length_append]; omega)
            (by rw [List.length_append]; omega)
            (by rw [List.length_append]; omega) hnext

theorem take_take_of_state (d l : List ℚ) (htake : d.take l.length = l) (j : Nat)
    (hj : j < l.length) : (d.drop 0).take (j + 1) = l.take (j + 1) := by
  rw [List.drop_zero]
  conv_rhs => rw [← htake]
  rw [List.take_take, Nat.min_eq_left (by omega)]

/-- The text of `raw_to_string` is the lines of the values, in order, when
no line fills the block exactly. -/
theorem raw_to_string_eq (r0 : Raw) (l : List ℚ) (hN : l.length < 2 ^ 31)
    (hroom : ∀ i k, i < l.length → raw_text_length l (i + 1) ≠ 1024 * 2 ^ k) :
    raw_to_string (raw_of r0 l) = some ((l.map raw_line).flatten) := by
  obtain ⟨d, size, hr, hlen, hle, htake, _, _⟩ := raw_of_state r0 l hN
  rw [hr]
  unfold raw_to_string
  simp only [Option.isNone_some, Bool.false_eq_true, if_false, Option.getD_some, Int.toNat_ofNat]
  obtain ⟨r_size', hloop⟩ := raw_to_string_loop_some d l.length 0 1024 [] (by omega)
    ⟨0, rfl⟩ (by decide) (by norm_num at hN ⊢; omega) (by
      intro j k hj
      rw [take_take_of_state d l htake j hj]
      have := hroom j k hj
      unfold raw_text_length at this
      simpa using this)
  rw [hloop, List.drop_zero, htake]
  rfl

/-- The call of `raw_to_string` writes past the end of its block when the
text of the first values fills a block exactly. -/
theorem raw_to_string_none (r0 : Raw) (l : List ℚ) (hN : l.length < 2 ^ 31)
    (hfill : ∃ i k, i < l.length ∧ raw_text_length l (i + 1) = 1024 * 2 ^ k) :
    raw_to_string (raw_of r0 l) = none := by
  obtain ⟨d, size, hr, hlen, hle, htake, _, _⟩ := raw_of_state r0 l hN
  rw [hr]
  unfold raw_to_string
  simp only [Option.isNone_some, Bool.false_eq_true, if_false, Option.getD_some, Int.toNat_ofNat]
  obtain ⟨i, k, hi, hik⟩ := hfill
  rw [raw_to_string_loop_none d l.length 0 1024 [] (by omega) ⟨0, rfl⟩ (by decide)
    (Or.inl rfl) (by norm_num at hN ⊢; omega) ⟨i, k, hi, by
      rw [take_take_of_state d l htake i hi]
      unfold raw_text_length at hik
      simpa using hik⟩]
  rfl

theorem printf_f4_ten : printf_f4 10 = "10.0000".toList := by
  have h : round_half_even (|(10 : ℚ)| * 10000) = 100000 := by
    norm_num [round_half_even, abs_of_nonneg]
  unfold printf_f4
  rw [h]
  decide

/-- After 128 samples `10.0` the text has 1024 characters, the size of the
first block: `raw_to_string` writes the terminating NUL past its end. -/
theorem raw_to_string_block_filled :
    raw_text_length (List.replicate 128 10) 128 = 1024 ∧
    raw_to_string (raw_of ⟨none, 0, 0⟩ (List.replicate 128 10)) = none := by
  have hline : (raw_line 10).length = 8 := by
    rw [raw_line_fit 10 (by rw [printf_f4_ten]; decide), printf_f4_ten]
    rfl
  have hlen : raw_text_length (List.replicate 128 10) 128 = 1024 := by
    unfold raw_text_length
    simp [List.length_flatten, hline]
  refine ⟨hlen, ?_⟩
  apply raw_to_string_none _ _ (by simp)
  exact ⟨127, 0, by simp, hlen⟩

/-! ## The claims on the raw recorder -/

/-- C13 as stated fails for a value whose rendering does not fit the 200-byte
line buffer: after `raw_clear` and `raw_add(1e200)` the text of
`raw_to_string` has 199 characters and no newline, so it is not one line. -/
theorem raw_to_string_long_value :
    (raw_of ⟨none, 0, 0⟩ [1e200]).pos_ = 1 ∧
    raw_to_string (raw_of ⟨none, 0, 0⟩ [1e200]) = some ((printf_f4 1e200).take 199) ∧
    ((printf_f4 1e200).take 199).length = 199 ∧
    ((printf_f4 1e200).take 199).count '\n' = 0 := by
  have hN : ([1e200] : List ℚ).length < 2 ^ 31 := by norm_num
  obtain ⟨d, size, hr, _⟩ := raw_of_state ⟨none, 0, 0⟩ [1e200] hN
  have hlong := printf_f4_sentinel_length
  have hcut : raw_line 1e200 = (printf_f4 1e200).take 199 := raw_line_cut _ (by omega)
  have hlen : ((printf_f4 1e200).take 199).length = 199 := by
    rw [List.length_take, hlong]
    rfl
  have hline : raw_to_string (raw_of ⟨none, 0, 0⟩ [1e200]) = some ((printf_f4 1e200).take 199) := by
    rw [raw_to_string_eq _ _ hN]
    · simp only [List.map_cons, List.map_nil, List.flatten_cons, List.flatten_nil,
        List.append_nil, hcut]
    · intro i k hi
      have hi0 : i = 0 := by
        simp only [List.length_singleton] at hi
        omega
      subst hi0
      have hge := block_size_ge k
      have : raw_text_length [1e200] (0 + 1) = 199 := by
        unfold raw_text_length
        simp only [Nat.zero_add, List.take_succ_cons, List.take_zero, List.map_cons,
          List.map_nil, List.flatten_cons, List.flatten_nil, List.append_nil, hcut, hlen]
      omega
  refine ⟨by rw [hr]; rfl, hline, hlen, ?_⟩
  apply List.count_eq_zero.mpr
  intro hmem
  exact printf_f4_no_newline _ (List.mem_of_mem_take hmem)

/-- C13, amended: for every sequence of `N < 2^31` values, after `raw_clear`
and the `raw_add` calls the recorder has `pos_ = N`, the first `N` cells hold
the values in order, and `pos_ ≤ data_size_` holds after every add;
`raw_print` writes the header `num,time` and `N` rows that start with the
index; `raw_to_string` yields `N` lines in insertion order when the `%.4f`
rendering of every value has at most 198 characters and the lines of the
first `i` values never have a total length `1024 * 2^k`, the size of a
block. -/
theorem raw_recorder_contents (r0 : Raw) (values : List ℚ) (hN : values.length < 2 ^ 31) :
    (∃ d size, raw_of r0 values = ⟨some d, size, values.length⟩ ∧ d.length = size ∧
      values.length ≤ size ∧ d.take values.length = values) ∧
    (∀ k, (raw_of r0 (values.take k)).pos_ ≤ (raw_of r0 (values.take k)).data_size_) ∧
    raw_print (raw_of r0 values)
      = "num,time\n".toList
        ++ ((List.range values.length).map
            (fun i : Nat =>
              printf_d i ++ [','] ++ printf_f4 (values.getD i 0) ++ ['\n'])).flatten ∧
    (raw_print (raw_of r0 values)).count '\n' = values.length + 1 ∧
    ((∀ v ∈ values, (printf_f4 v).length ≤ 198) →
      (∀ i k : Nat, i < values.length →
        (((values.take (i + 1)).map (fun v => printf_f4 v ++ ['\n'])).flatten).length
          ≠ 1024 * 2 ^ k) →
      raw_to_string (raw_of r0 values)
        = some ((values.map (fun v => printf_f4 v ++ ['\n'])).flatten) ∧
      ((values.map (fun v => printf_f4 v ++ ['\n'])).flatten).count '\n' = values.length) := by
  obtain ⟨d, size, hr, hlen, hle, htake, _, _⟩ := raw_of_state r0 values hN
  refine ⟨⟨d, size, hr, hlen, hle, htake⟩, ?_, ?_, ?_, ?_⟩
  · intro k
    have hk : (values.take k).length < 2 ^ 31 := by
      rw [List.length_take]
      omega
    obtain ⟨d', size', hr', _, hle', _⟩ := raw_of_state r0 (values.take k) hk
    rw [hr']
    show ((List.take k values).length : Int) ≤ (size' : Int)
    exact_mod_cast hle'
  · rw [raw_print_eq _ _ hN]
    rfl
  · rw [raw_print_eq _ _ hN, List.count_append, List.range_eq_range',
      count_flatten_rows _ (fun i => raw_row i (values.getD i 0)) (fun j => raw_row_count j _)]
    have hh : List.count '\n' "num,time\n".toList = 1 := by decide
    omega
  · intro hfit hroom
    have hlines : values.map raw_line = values.map (fun v => printf_f4 v ++ ['\n']) :=
      List.map_congr_left (fun v hv => raw_line_fit v (hfit v hv))
    constructor
    · rw [raw_to_string_eq _ _ hN, hlines]
      intro i k hi
      unfold raw_text_length
      rw [List.map_congr_left (fun v hv => raw_line_fit v (hfit v (List.mem_of_mem_take hv)))]
      exact hroom i k hi
    · rw [← hlines]
      exact count_flatten_lines _ _ (fun v hv => raw_line_count v (hfit v hv))

theorem raw_recorder_contents_witness :
    raw_to_string (raw_of ⟨none, 0, 0⟩ [3, 7])
      = some ((([3, 7] : List ℚ).map (fun v => printf_f4 v ++ ['\n'])).flatten) ∧
    ((([3, 7] : List ℚ).map (fun v => printf_f4 v ++ ['\n'])).flatten).count '\n'
      = ([3, 7] : List ℚ).length ∧
    (raw_print (raw_of ⟨none, 0, 0⟩ [3, 7])).count '\n' = ([3, 7] : List ℚ).length + 1 := by
  have h3 : round_half_even (|(3 : ℚ)| * 10000) = 30000 := by
    norm_num [round_half_even, abs_of_nonneg]
  have h7 : round_half_even (|(7 : ℚ)| * 10000) = 70000 := by
    norm_num [round_half_even, abs_of_nonneg]
  have l3 : (printf_f4 3).length = 6 := by
    unfold printf_f4
    rw [h3]
    decide
  have l7 : (printf_f4 7).length = 6 := by
    unfold printf_f4
    rw [h7]
    decide
  have t := raw_recorder_contents ⟨none, 0, 0⟩ [3, 7] (by norm_num)
  have u := t.2.2.2.2 (by
    intro v hv
    simp only [List.mem_cons, List.mem_singleton, List.not_mem_nil, or_false] at hv
    rcases hv with rfl | rfl
    · omega
    · omega) (by
    intro i k hi
    have hge := block_size_ge k
    have hi2 : i = 0 ∨ i = 1 := by
      simp only [List.length_cons, List.length_singleton, List.length_nil] at hi
      omega
    rcases hi2 with rfl | rfl
    · simp [l3]
      omega
    · simp [l3, l7]
      omega)
  exact ⟨u.1, u.2, t.2.2.2.1⟩

/-! ### Lemmas on the keys -/

theorem zero_padded_length (w : Nat) : ∀ k, (zero_padded w k).length = w := by
  induction w with
  | zero => intro k; rfl
  | succ w ih => intro k; simp [zero_padded, ih]

theorem printf_016d_nat (k : Nat) (hk : k < 10 ^ 16) :
    printf_016d (k : Int) = zero_padded 16 k := by
  unfold printf_016d
  rw [if_neg (by omega), Int.natAbs_ofNat, if_pos hk]

/-- The key of a sequential index: sixteen characters, neither cut by the key
buffer nor by the bound length. -/
theorem key_of_nat (k : Nat) (hk : k < 10 ^ 16) :
    (snprintf 100 (printf_016d (k : Int))).take 16 = printf_016d (k : Int) ∧
    (snprintf 100 (printf_016d (k : Int))).length = 16 := by
  have hlen : (printf_016d (k : Int)).length = 16 := by
    rw [printf_016d_nat k hk, zero_padded_length]
  have hs : snprintf 100 (printf_016d (k : Int)) = printf_016d (k : Int) := by
    unfold snprintf
    exact List.take_of_length_le (by omega)
  rw [hs]
  exact ⟨List.take_of_length_le (by omega), hlen⟩

theorem digitChar_lt (a b : Nat) (hab : a < b) (hb : b < 10) :
    Nat.digitChar a < Nat.digitChar b := by
  interval_cases b <;> interval_cases a <;> decide

/-- Zero-padded decimals of the same width are ordered as their numbers. -/
theorem zero_padded_lex (w : Nat) : ∀ a b, a < b → b < 10 ^ w →
    List.Lex (· < ·) (zero_padded w a) (zero_padded w b) := by
  induction w with
  | zero => intro a b hab hb; simp at hb; omega
  | succ w ih =>
    intro a b hab hb
    have hpos : 0 < 10 ^ w := Nat.pow_pos (by decide)
    have hqb : b / 10 ^ w < 10 := by
      rw [Nat.div_lt_iff_lt_mul hpos]
      rw [pow_succ] at hb
      omega
    have hqa : a / 10 ^ w ≤ b / 10 ^ w := Nat.div_le_div_right (le_of_lt hab)
    simp only [zero_padded]
    rw [Nat.mod_eq_of_lt hqb, Nat.mod_eq_of_lt (lt_of_le_of_lt hqa hqb)]
    rcases Nat.lt_or_eq_of_le hqa with hlt | heq
    · exact List.Lex.rel (digitChar_lt _ _ hlt hqb)
    · rw [heq]
      apply List.Lex.cons
      apply ih _ _ _ (Nat.mod_lt _ hpos)
      have ha := Nat.div_add_mod a (10 ^ w)
      have hb' := Nat.div_add_mod b (10 ^ w)
      rw [heq] at ha
      omega

theorem printf_016d_lex (a b : Nat) (hab : a < b) (hb : b < 10 ^ 16) :
    List.Lex (· < ·) (printf_016d (a : Int)) (printf_016d (b : Int)) := by
  rw [printf_016d_nat a (by omega), printf_016d_nat b hb]
  exact zero_padded_lex 16 a b hab hb

theorem upsert_keys_append (xs ys : List StorageOp) :
    upsert_keys (xs ++ ys) = upsert_keys xs ++ upsert_keys ys := by
  induction xs with
  | nil => rfl
  | cons x xs ih => cases x <;> simp [upsert_keys, ih]

/-! ### Lemmas on the write driver -/

/-- With the pool ready, `rand_gen_generate` returns `value_size` bytes and
leaves the pool ready. -/
theorem rand_gen_generate_ready (g : RandomGenerator) (vs : Int) (h : pool_ready g vs) :
    ∃ generated, rand_gen_generate g vs = some generated ∧ pool_ready generated.1 vs ∧
      generated.2.length = vs.toNat := by
  obtain ⟨hp0, hp, hsize, hint, hv0, hv⟩ := h
  have hposint : g.pos_ < 2 ^ 31 := by omega
  have hlenint : vs < 2 ^ 31 := by omega
  have hl64 : vs < 2 ^ 64 := by norm_num at hlenint ⊢; omega
  have hw := rand_gen_wrap_iff g vs hp0 hv0 hposint hlenint
  have ha := rand_gen_assert_iff g vs hv0 hlenint
  by_cases hfit : g.pos_ + vs ≤ g.data_size_
  · refine ⟨({ data_ := g.data_, data_size_ := g.data_size_, pos_ := g.pos_ + vs },
        (g.data_.drop g.pos_.toNat).take vs.toNat), ?_, ?_, ?_⟩
    · unfold rand_gen_generate
      rw [if_neg (fun h => absurd (hw.mp h) (by omega))]
      rw [rand_gen_copy_fit g vs hv0 hl64 (by omega)]
    · exact ⟨by show 0 ≤ g.pos_ + vs; omega, hfit, hsize, hint, hv0, hv⟩
    · show ((g.data_.drop g.pos_.toNat).take vs.toNat).length = vs.toNat
      rw [List.length_take, List.length_drop]
      omega
  · refine ⟨({ data_ := g.data_, data_size_ := g.data_size_, pos_ := 0 + vs },
        (g.data_.drop (0 : Int).toNat).take vs.toNat), ?_, ?_, ?_⟩
    · unfold rand_gen_generate
      rw [if_pos (hw.mpr (by omega)), if_pos (ha.mpr hv)]
      rw [rand_gen_copy_fit { g with pos_ := 0 } vs hv0 hl64
        (by show (0 : Int).toNat + vs.toNat ≤ g.data_.length; simp; omega)]
    · exact ⟨by show (0 : Int) ≤ 0 + vs; omega, by show (0 : Int) + vs ≤ (g.data_size_ : Int); omega,
        hsize, hint, hv0, hv⟩
    · show ((g.data_.drop (0 : Int).toNat).take vs.toNat).length = vs.toNat
      rw [List.length_take, List.length_drop]
      simp
      omega

/-- One sequential entry: one upsert with the key of `i + j`, `value_size + 16`
more bytes. -/
theorem write_entry_sequential (ne vs : Int) (a b : Nat) (s : Benchmark)
    (hready : pool_ready s.gen_ vs) (hk : a + b < 10 ^ 16) :
    ∃ s' value, write_entry Order.SEQUENTIAL ne vs a b s = some s' ∧
      pool_ready s'.gen_ vs ∧ s'.bytes_ = s.bytes_ + (vs + 16) ∧
      s'.ops = s.ops ++ [StorageOp.step_replace (printf_016d ((a + b : Nat) : Int)) value] ∧
      s'.message_ = s.message_ := by
  obtain ⟨generated, hgen, hready', _⟩ := rand_gen_generate_ready s.gen_ vs hready
  obtain ⟨hkey, hlen⟩ := key_of_nat (a + b) hk
  refine ⟨finished_single_op { s with
      gen_ := generated.1
      rand_ := s.rand_
      bytes_ := s.bytes_ + (vs + ((snprintf 100 (printf_016d ((a : Int) + (b : Int)))).length : Int))
      ops := s.ops ++ [StorageOp.step_replace
        ((snprintf 100 (printf_016d ((a : Int) + (b : Int)))).take 16) generated.2] },
    generated.2, ?_, ?_, ?_, ?_, rfl⟩
  · unfold write_entry
    rw [hgen]
  · exact hready'
  · show s.bytes_ + (vs + ((snprintf 100 (printf_016d ((a : Int) + (b : Int)))).length : Int)) = _
    rw [show (a : Int) + (b : Int) = ((a + b : Nat) : Int) by push_cast; rfl, hlen]
    rfl
  · show s.ops ++ [StorageOp.step_replace
        ((snprintf 100 (printf_016d ((a : Int) + (b : Int)))).take 16) generated.2] = _
    rw [show (a : Int) + (b : Int) = ((a + b : Nat) : Int) by push_cast; rfl, hkey]

/-- One sequential batch of `n` entries from index `i + j`. -/
theorem write_batch_sequential (ne vs : Int) (a : Nat) : ∀ (n b : Nat) (s : Benchmark),
    pool_ready s.gen_ vs → a + b + n ≤ 10 ^ 16 →
    ∃ s' new, write_batch Order.SEQUENTIAL ne vs a n b s = some s' ∧
      pool_ready s'.gen_ vs ∧ s'.bytes_ = s.bytes_ + n * (vs + 16) ∧
      s'.ops = s.ops ++ new ∧ upsert_keys new = seq_keys (a + b) n ∧ new.length = n ∧
      s'.message_ = s.message_ := by
  intro n
  induction n with
  | zero =>
    intro b s hready _
    exact ⟨s, [], rfl, hready, by simp, by simp, rfl, rfl, rfl⟩
  | succ n ih =>
    intro b s hready hk
    obtain ⟨s1, value, h1, hr1, hb1, ho1, hm1⟩ :=
      write_entry_sequential ne vs a b s hready (by omega)
    obtain ⟨s2, new, h2, hr2, hb2, ho2, hk2, hl2, hm2⟩ := ih (b + 1) s1 hr1 (by omega)
    refine ⟨s2, StorageOp.step_replace (printf_016d ((a + b : Nat) : Int)) value :: new,
      ?_, hr2, ?_, ?_, ?_, ?_, hm2.trans hm1⟩
    · simp only [write_batch, h1]
      rw [show ((b : Int) + 1) = ((b + 1 : Nat) : Int) by push_cast; rfl]
      exact h2
    · rw [hb2, hb1]
      push_cast
      ring
    · rw [ho2, ho1]
      simp
    · simp only [upsert_keys, hk2, seq_keys, List.range'_succ, List.map_cons]
      rw [show a + (b + 1) = a + b + 1 by ring]
    · simp [hl2]


theorem seq_keys_append (a m n : Nat) : seq_keys a m ++ seq_keys (a + m) n = seq_keys a (m + n) := by
  unfold seq_keys
  rw [← List.map_append, List.range'_append_1, Nat.add_comm n m]

/-- The outer loop of `benchmark_write` in sequential order, for a positive
batch size `e`: whole batches are written until the index reaches `n`. -/
theorem write_batches_sequential (f : Flags) (vs : Int) (n e : Nat) (he : 0 < e)
    (hbound : n + e ≤ 10 ^ 16) :
    ∀ (m a : Nat) (s : Benchmark), n - a = m → pool_ready s.gen_ vs →
    ∃ (s' : Benchmark) (new : List StorageOp) (T : Nat),
      write_batches f Order.SEQUENTIAL n vs e a s = some s' ∧
      pool_ready s'.gen_ vs ∧ s'.bytes_ = s.bytes_ + (T : Int) * (vs + 16) ∧
      s'.ops = s.ops ++ new ∧ upsert_keys new = seq_keys a T ∧
      s'.message_ = s.message_ ∧
      (∃ q, T = q * e) ∧ (a < n → n ≤ a + T ∧ a + T < n + e) ∧ (n ≤ a → T = 0) := by
  intro m
  induction m using Nat.strong_induction_on with
  | _ m ih =>
    intro a s hm hready
    by_cases hlt : a < n
    · have hcond : (a : Int) < (n : Int) := by exact_mod_cast hlt
      have hepos : (0 : Int) < (e : Int) := by exact_mod_cast he
      generalize htr : (f.FLAGS_transaction && decide ((e : Int) > 1)) = transaction
      have hready1 : pool_ready
          (if transaction = true then { s with ops := s.ops ++ [StorageOp.step_begin] }
            else s).gen_ vs := by
        split <;> exact hready
      obtain ⟨s1, new1, h1, hr1, hb1, ho1, hk1, _, hm1⟩ :=
        write_batch_sequential (n : Int) vs a e 0
          (if transaction = true then { s with ops := s.ops ++ [StorageOp.step_begin] } else s)
          hready1 (by omega)
      have hready2 : pool_ready
          (if transaction = true then { s1 with ops := s1.ops ++ [StorageOp.step_end] }
            else s1).gen_ vs := by
        split <;> exact hr1
      obtain ⟨s2, new2, T2, h2, hr2, hb2, ho2, hk2, hm2, ⟨q, hq⟩, hT1, hT2⟩ :=
        ih (n - (a + e)) (by omega) (a + e)
          (if transaction = true then { s1 with ops := s1.ops ++ [StorageOp.step_end] } else s1)
          rfl hready2
      refine ⟨s2, (if transaction = true then [StorageOp.step_begin] else []) ++ new1
          ++ (if transaction = true then [StorageOp.step_end] else []) ++ new2, e + T2,
        ?_, hr2, ?_, ?_, ?_, ?_, ⟨q + 1, by rw [hq]; ring⟩, fun _ => ?_,
        fun h => absurd h (by omega)⟩
      · rw [write_batches, if_pos hcond, if_pos hepos]
        simp only [htr, Int.toNat_ofNat]
        rw [show ((0 : Nat) : Int) = 0 from rfl] at h1
        rw [h1]
        simp only []
        rw [show (a : Int) + (e : Int) = ((a + e : Nat) : Int) by push_cast; rfl]
        exact h2
      · rw [hb2]
        have : (if transaction = true then { s1 with ops := s1.ops ++ [StorageOp.step_end] }
            else s1).bytes_ = s1.bytes_ := by split <;> rfl
        rw [this, hb1]
        have : (if transaction = true then { s with ops := s.ops ++ [StorageOp.step_begin] }
            else s).bytes_ = s.bytes_ := by split <;> rfl
        rw [this]
        push_cast
        ring
      · rw [ho2]
        have e1 : (if transaction = true then { s1 with ops := s1.ops ++ [StorageOp.step_end] }
            else s1).ops = s1.ops ++ (if transaction = true then [StorageOp.step_end] else []) := by
          split <;> simp
        have e0 : (if transaction = true then { s with ops := s.ops ++ [StorageOp.step_begin] }
            else s).ops = s.ops ++ (if transaction = true then [StorageOp.step_begin] else []) := by
          split <;> simp
        rw [e1, ho1, e0]
        simp only [List.append_assoc]
      · simp only [upsert_keys_append, hk1, hk2, Nat.add_zero]
        have b0 : upsert_keys (if transaction = true then [StorageOp.step_begin] else []) = [] := by
          split <;> rfl
        have b1 : upsert_keys (if transaction = true then [StorageOp.step_end] else []) = [] := by
          split <;> rfl
        rw [b0, b1, List.nil_append, List.append_nil, seq_keys_append]
      · rw [hm2]
        have : (if transaction = true then { s1 with ops := s1.ops ++ [StorageOp.step_end] }
            else s1).message_ = s1.message_ := by split <;> rfl
        rw [this, hm1]
        split <;> rfl
      · by_cases hnext : a + e < n
        · have := hT1 hnext
          omega
        · have := hT2 (by omega)
          omega
    · have hcond : ¬ (a : Int) < (n : Int) := by exact_mod_cast hlt
      refine ⟨s, [], 0, ?_, hready, by simp, by simp, rfl, rfl, ⟨0, by simp⟩,
        fun h => absurd h hlt, fun _ => rfl⟩
      rw [write_batches, if_neg hcond]

theorem upsert_keys_open_calls (f : Flags) (k : Int) :
    upsert_keys (benchmark_open_calls f k) = [] := by
  unfold benchmark_open_calls
  split <;> split <;> rfl

theorem upsert_keys_prepare (ws : Bool) : upsert_keys (benchmark_write_prepare ws) = [] := rfl

/-- Closing and opening the database at the start of a fresh workload. -/
theorem benchmark_reopen (f : Flags) (s : Benchmark) :
    ∃ s0, (benchmark_open f (benchmark_close s)).map start = some s0 ∧
      s0.gen_ = s.gen_ ∧ s0.num_ = s.num_ ∧ s0.bytes_ = 0 ∧ s0.message_ = some [] ∧
      s0.ops = s.ops ++ [StorageOp.sqlite3_close] ++ benchmark_open_calls f (s.db_num_ + 1) := by
  simp only [benchmark_open, benchmark_close, Bool.false_eq_true, if_false, Option.map_some']
  exact ⟨_, rfl, rfl, rfl, rfl, rfl, rfl⟩

/-- A sequential write on a fresh database, reuse off: the upserts are the
keys `0 .. T-1`, where `T` is `n` rounded up to whole batches; `bytes_` ends
at `T * (value_size + 16)`. -/
theorem benchmark_write_sequential (f : Flags) (ws : Bool) (vs : Int) (n e : Nat)
    (he : 0 < e) (hbound : n + e ≤ 10 ^ 16) (s : Benchmark)
    (hexist : f.FLAGS_use_existing_db = false) (hready : pool_ready s.gen_ vs) :
    ∃ (s' : Benchmark) (new : List StorageOp) (T : Nat),
      benchmark_write f ws Order.SEQUENTIAL DBState.FRESH n vs e s = some s' ∧
      s'.bytes_ = (T : Int) * (vs + 16) ∧ s'.ops = s.ops ++ new ∧
      upsert_keys new = seq_keys 0 T ∧
      s'.message_ = (if (n : Int) ≠ s.num_ then
          some ("(".toList ++ printf_d n ++ " ops)".toList) else some []) ∧
      (∃ q, T = q * e) ∧ (0 < n → n ≤ T ∧ T < n + e) ∧ (n = 0 → T = 0) := by
  obtain ⟨s0, hopen, hgen0, hnum0, hbytes0, hmsg0, hops0⟩ := benchmark_reopen f s
  obtain ⟨s1, hs1⟩ : ∃ s1, s1 = (if (n : Int) ≠ s0.num_ then
      { s0 with message_ := some ("(".toList ++ printf_d n ++ " ops)".toList) } else s0) :=
    ⟨_, rfl⟩
  have hgen1 : s1.gen_ = s.gen_ := by rw [hs1]; split <;> exact hgen0
  have hbytes1 : s1.bytes_ = 0 := by rw [hs1]; split <;> exact hbytes0
  have hops1 : s1.ops
      = s.ops ++ [StorageOp.sqlite3_close] ++ benchmark_open_calls f (s.db_num_ + 1) := by
    rw [hs1]; split <;> exact hops0
  have hmsg1 : s1.message_ = (if (n : Int) ≠ s.num_ then
      some ("(".toList ++ printf_d n ++ " ops)".toList) else some []) := by
    rw [hs1, hnum0]; split
    · rfl
    · exact hmsg0
  obtain ⟨s2, new2, T, h2, hr2, hb2, ho2, hk2, hm2, hq, hT1, hT2⟩ :=
    write_batches_sequential f vs n e he hbound _ 0
      { s1 with ops := s1.ops ++ benchmark_write_prepare ws } rfl
      (by show pool_ready s1.gen_ vs; rw [hgen1]; exact hready)
  refine ⟨{ s2 with ops := s2.ops ++ [StorageOp.sqlite3_finalize, StorageOp.sqlite3_finalize,
        StorageOp.sqlite3_finalize] },
    [StorageOp.sqlite3_close] ++ benchmark_open_calls f (s.db_num_ + 1)
      ++ benchmark_write_prepare ws ++ new2
      ++ [StorageOp.sqlite3_finalize, StorageOp.sqlite3_finalize, StorageOp.sqlite3_finalize],
    T, ?_, ?_, ?_, ?_, ?_, hq, fun h => ?_, fun h => hT2 (by omega)⟩
  · unfold benchmark_write
    rw [if_neg (by rw [hexist]; simp)]
    rw [show ((0 : Nat) : Int) = 0 from rfl] at h2
    simp only [if_true, hopen]
    rw [← hs1, h2]
  · show s2.bytes_ = _
    rw [hb2]
    show s1.bytes_ + _ = _
    rw [hbytes1]
    ring
  · show s2.ops ++ _ = _
    rw [ho2]
    show s1.ops ++ _ ++ _ ++ _ = _
    rw [hops1]
    simp only [List.append_assoc]
  · simp only [upsert_keys_append, upsert_keys_open_calls, upsert_keys_prepare, hk2]
    simp [upsert_keys]
  · show s2.message_ = _
    rw [hm2]
    exact hmsg1
  · have := hT1 h
    omega


theorem wal_checkpoint_fields (f : Flags) (s : Benchmark) :
    (wal_checkpoint f s).bytes_ = s.bytes_ ∧ (wal_checkpoint f s).message_ = s.message_ ∧
    (wal_checkpoint f s).ops
      = s.ops ++ (if f.FLAGS_WAL_enabled then [StorageOp.sqlite3_wal_checkpoint] else []) := by
  unfold wal_checkpoint
  split <;> simp

theorem upsert_keys_checkpoint (f : Flags) :
    upsert_keys (if f.FLAGS_WAL_enabled then [StorageOp.sqlite3_wal_checkpoint] else []) = [] := by
  split <;> rfl

/-- A sequential fresh workload of `benchmark_run`, reuse off, with `n`
entries in batches of `e`. -/
theorem run_sequential (f : Flags) (ws : Bool) (vs : Int) (n e : Nat) (he : 0 < e)
    (hbound : n + e ≤ 10 ^ 16) (s : Benchmark)
    (hexist : f.FLAGS_use_existing_db = false) (hready : pool_ready s.gen_ vs) :
    ∃ (s' : Benchmark) (new : List StorageOp) (T : Nat),
      (benchmark_write f ws Order.SEQUENTIAL DBState.FRESH n vs e
        (start { s with bytes_ := 0 })).map (wal_checkpoint f) = some s' ∧
      s'.bytes_ = (T : Int) * (vs + 16) ∧ s'.ops = s.ops ++ new ∧
      upsert_keys new = seq_keys 0 T ∧
      s'.message_ = (if (n : Int) ≠ s.num_ then
          some ("(".toList ++ printf_d n ++ " ops)".toList) else some []) ∧
      (∃ q, T = q * e) ∧ (0 < n → n ≤ T ∧ T < n + e) ∧ (n = 0 → T = 0) := by
  obtain ⟨s1, new, T, h1, hb, ho, hk, hm, hq, hT1, hT2⟩ :=
    benchmark_write_sequential f ws vs n e he hbound (start { s with bytes_ := 0 }) hexist hready
  obtain ⟨c1, c2, c3⟩ := wal_checkpoint_fields f s1
  refine ⟨wal_checkpoint f s1,
    new ++ (if f.FLAGS_WAL_enabled then [StorageOp.sqlite3_wal_checkpoint] else []), T,
    by rw [h1]; rfl, by rw [c1, hb], ?_, ?_, by rw [c2, hm]; rfl, hq, hT1, hT2⟩
  · rw [c3, ho]
    show s.ops ++ new ++ _ = _
    rw [List.append_assoc]
  · rw [upsert_keys_append, upsert_keys_checkpoint, hk, List.append_nil]

/-- The state in which `benchmark_run` enters its loop. -/
theorem benchmark_run_entry (f : Flags) :
    ∃ s0, benchmark_open f (benchmark_init f) = some s0 ∧ s0.num_ = f.FLAGS_num ∧
      s0.gen_ = rand_gen_init f.FLAGS_compression_ratio ∧
      s0.ops = benchmark_open_calls f 1 := by
  simp only [benchmark_open, benchmark_init, Bool.false_eq_true, if_false]
  exact ⟨_, rfl, rfl, rfl, by simp⟩

/-- The pool built with the default ratio serves values of 100 bytes. -/
theorem pool_ready_default : pool_ready (rand_gen_init (1 / 2)) 100 := by
  obtain ⟨h1, h2, h3⟩ := rand_gen_init_half
  unfold pool_ready
  rw [h1, h2, h3]
  norm_num

theorem seq_keys_range (n : Nat) :
    seq_keys 0 n = (List.range n).map (fun i : Nat => printf_016d (i : Int)) := by
  unfold seq_keys
  rw [List.range_eq_range']

/-! ## The claims on the write workloads -/

/-- C14: workload `fillseq` with existing-database reuse off, `n` entries and
a value size the pool can serve: `benchmark_write` issues exactly `n` upserts,
the `i`-th with the 16-character zero-padded decimal key of `i`; the keys
start at `0000000000000000` and increase strictly as byte strings; `bytes_`
ends at `n * (value_size + 16)`. -/
theorem fillseq_upserts (f : Flags) (s : Benchmark) (n : Nat)
    (hexist : f.FLAGS_use_existing_db = false) (hnum : s.num_ = n) (hint : n < 2 ^ 31)
    (hready : pool_ready s.gen_ f.FLAGS_value_size) :
    ∃ (s' : Benchmark) (new : List StorageOp),
      benchmark_run_write f WriteWorkload.fillseq s = some s' ∧
      s'.ops = s.ops ++ new ∧
      upsert_keys new = (List.range n).map (fun i : Nat => printf_016d (i : Int)) ∧
      (upsert_keys new).length = n ∧
      s'.bytes_ = n * (f.FLAGS_value_size + 16) ∧
      printf_016d 0 = "0000000000000000".toList ∧
      (∀ i : Nat, i < n → (printf_016d (i : Int)).length = 16) ∧
      (∀ i j : Nat, i < j → j < n →
        List.Lex (· < ·) (printf_016d (i : Int)) (printf_016d (j : Int))) := by
  have hn16 : n < 10 ^ 16 := by norm_num at hint ⊢; omega
  obtain ⟨s', new, T, h1, hb, ho, hk, _, ⟨q, hq⟩, hT1, hT2⟩ :=
    run_sequential f false f.FLAGS_value_size n 1 (by decide)
      (by norm_num at hint ⊢; omega) s hexist hready
  have hT : T = n := by
    rcases Nat.eq_zero_or_pos n with h0 | hpos
    · rw [h0]; exact hT2 h0
    · have := hT1 hpos
      omega
  rw [hT] at hb hk
  refine ⟨s', new, ?_, ho, by rw [hk, seq_keys_range], by rw [hk, seq_keys_range]; simp,
    hb, by decide, ?_, ?_⟩
  · unfold benchmark_run_write
    simp only []
    rw [show (start { s with bytes_ := 0 }).num_ = (n : Int) from hnum]
    rw [show ((1 : Nat) : Int) = 1 from rfl] at h1
    exact h1
  · intro i hi
    rw [printf_016d_nat i (by omega), zero_padded_length]
  · intro i j hij hj
    exact printf_016d_lex i j hij (by omega)

theorem fillseq_upserts_witness :
    ∃ (s0 s' : Benchmark) (new : List StorageOp),
      benchmark_open (flags_with_num 1000) (benchmark_init (flags_with_num 1000)) = some s0 ∧
      benchmark_run_write (flags_with_num 1000) WriteWorkload.fillseq s0 = some s' ∧
      s'.ops = s0.ops ++ new ∧ (upsert_keys new).length = 1000 ∧ s'.bytes_ = 116000 := by
  obtain ⟨s0, hopen, hnum0, hgen0, _⟩ := benchmark_run_entry (flags_with_num 1000)
  obtain ⟨s', new, h1, h2, _, h4, h5, _⟩ :=
    fillseq_upserts (flags_with_num 1000) s0 1000 rfl (by rw [hnum0]; rfl) (by norm_num)
      (by rw [hgen0]; exact pool_ready_default)
  refine ⟨s0, s', new, hopen, h1, h2, h4, ?_⟩
  rw [h5]
  rfl

/-- C15 fails on the code: with `--num=1500` the workload `fillseqbatch`
issues 2000 upserts, with the keys of `0 .. 1999`, not 1500: the inner loop
always writes a whole batch of 1000. -/
theorem fillseqbatch_writes_whole_batches :
    ∃ (s0 s' : Benchmark) (new : List StorageOp),
      benchmark_open (flags_with_num 1500) (benchmark_init (flags_with_num 1500)) = some s0 ∧
      benchmark_run_write (flags_with_num 1500) WriteWorkload.fillseqbatch s0 = some s' ∧
      s'.ops = s0.ops ++ new ∧
      upsert_keys new = (List.range 2000).map (fun i : Nat => printf_016d (i : Int)) ∧
      (upsert_keys new).length = 2000 := by
  obtain ⟨s0, hopen, hnum0, hgen0, _⟩ := benchmark_run_entry (flags_with_num 1500)
  obtain ⟨s', new, T, h1, _, ho, hk, _, ⟨q, hq⟩, hT1, _⟩ :=
    run_sequential (flags_with_num 1500) false 100 1500 1000 (by decide) (by norm_num) s0 rfl
      (by rw [hgen0]; exact pool_ready_default)
  have hT : T = 2000 := by
    have := hT1 (by decide)
    omega
  rw [hT] at hk
  refine ⟨s0, s', new, hopen, ?_, ho, by rw [hk, seq_keys_range],
    by rw [hk, seq_keys_range]; simp⟩
  unfold benchmark_run_write
  simp only []
  rw [show (start { s0 with bytes_ := 0 }).num_ = ((1500 : Nat) : Int) from hnum0]
  exact h1

/-- C16 as stated fails when write-ahead logging is on (the default): with
`--use_existing_db=1` the workload `fillseq` sets the skip message, and
`benchmark_run` still makes the checkpoint call on the storage handle. -/
theorem skipped_workload_checkpoints :
    ∃ (s0 s' : Benchmark),
      benchmark_open flags_existing_db (benchmark_init flags_existing_db) = some s0 ∧
      benchmark_run_write flags_existing_db WriteWorkload.fillseq s0 = some s' ∧
      s'.message_ = some skip_message ∧
      s'.ops = s0.ops ++ [StorageOp.sqlite3_wal_checkpoint] := by
  obtain ⟨s0, hopen, _⟩ := benchmark_run_entry flags_existing_db
  exact ⟨s0, _, hopen, rfl, rfl, rfl⟩

/-- C16, amended: with existing-database reuse on, a fresh write workload
sets `message_` to the skip text and `benchmark_write` makes no call on the
storage handle (no close, open, pragma, prepare, upsert or transaction); the
only call of the round is the checkpoint of `wal_checkpoint`, made when
`FLAGS_WAL_enabled` is set, and `stop` makes none; with write-ahead logging
off the round makes no storage call at all. -/
theorem skipped_workload_calls (f : Flags) (w : WriteWorkload) (s : Benchmark)
    (env : StopEnv) (hexist : f.FLAGS_use_existing_db = true)
    (hfresh : w.state = DBState.FRESH) :
    ∃ s' : Benchmark,
      benchmark_run_write f w s = some s' ∧
      s'.message_ = some skip_message ∧
      s'.bytes_ = 0 ∧
      s'.ops = s.ops
        ++ (if f.FLAGS_WAL_enabled then [StorageOp.sqlite3_wal_checkpoint] else []) ∧
      (f.FLAGS_WAL_enabled = false → s'.ops = s.ops) ∧
      (stop env w.name s').1.ops = s'.ops ∧
      (∀ (ws : Bool) (order : Order) (n vs e : Int),
        benchmark_write f ws order DBState.FRESH n vs e s
          = some { s with message_ := some skip_message }) := by
  have hskip : ∀ (ws : Bool) (order : Order) (n vs e : Int) (t : Benchmark),
      benchmark_write f ws order DBState.FRESH n vs e t
        = some { t with message_ := some skip_message } := by
    intro ws order n vs e t
    unfold benchmark_write
    rw [if_pos ⟨rfl, hexist⟩]
  have hrun : benchmark_run_write f w s
      = some (wal_checkpoint f
          { (start { s with bytes_ := 0 }) with message_ := some skip_message }) := by
    unfold benchmark_run_write
    cases w <;> first
      | (simp only [hskip]; rfl)
      | exact absurd hfresh (by decide)
  obtain ⟨c1, c2, c3⟩ := wal_checkpoint_fields f
    { (start { s with bytes_ := 0 }) with message_ := some skip_message }
  refine ⟨_, hrun, by rw [c2], by rw [c1]; rfl, by rw [c3]; rfl, ?_, rfl,
    fun ws order n vs e => hskip ws order n vs e s⟩
  intro hwal
  rw [c3, hwal]
  simp [start]

theorem skipped_workload_calls_witness :
    ∃ s' : Benchmark,
      benchmark_run_write flags_existing_db WriteWorkload.fillseqbatch
        (benchmark_init flags_existing_db) = some s' ∧
      s'.message_ = some skip_message := by
  obtain ⟨s', h1, h2, _⟩ := skipped_workload_calls flags_existing_db WriteWorkload.fillseqbatch
    (benchmark_init flags_existing_db) ⟨0, [], []⟩ rfl rfl
  exact ⟨s', h1, h2⟩

/-- C17 fails on the code: after the workload `fillseqsync` of a default run
`bytes_` is 1160000 and `message_` is `(10000 ops)`; `stop` then replaces the
message by the rate, so the summary line has the rate without the message
(and neither of them when `strlen` finds the fresh `rate` buffer empty). -/
theorem stop_drops_message :
    ∃ (s0 s1 : Benchmark),
      benchmark_open default_flags (benchmark_init default_flags) = some s0 ∧
      benchmark_run_write default_flags WriteWorkload.fillseqsync s0 = some s1 ∧
      s1.bytes_ = 1160000 ∧ s1.message_ = some "(10000 ops)".toList ∧
      (stop ⟨100, "  11.1 MB/s".toList, "      2.500".toList⟩
          WriteWorkload.fillseqsync.name s1).2
        = "fillseqsync  :       2.500 micros/op;   11.1 MB/s\n".toList ∧
      (stop ⟨0, "  11.1 MB/s".toList, "      2.500".toList⟩
          WriteWorkload.fillseqsync.name s1).2
        = "fillseqsync  :       2.500 micros/op;\n".toList := by
  obtain ⟨s0, hopen, hnum0, hgen0, _⟩ := benchmark_run_entry default_flags
  obtain ⟨s1, new, T, h1, hb, _, _, hm, ⟨q, hq⟩, hT1, _⟩ :=
    run_sequential default_flags true 100 10000 1 (by decide) (by norm_num) s0 rfl
      (by rw [hgen0]; exact pool_ready_default)
  have hT : T = 10000 := by
    have := hT1 (by decide)
    omega
  have hbytes : s1.bytes_ = 1160000 := by rw [hb, hT]; rfl
  have hmsg : s1.message_ = some "(10000 ops)".toList := by
    rw [hm, hnum0, if_pos (by decide)]
    decide
  refine ⟨s0, s1, hopen, ?_, hbytes, hmsg, ?_, ?_⟩
  · unfold benchmark_run_write
    simp only []
    rw [show (start { s0 with bytes_ := 0 }).num_ = (1000000 : Int) from hnum0]
    exact h1
  · simp only [stop, stop_message, hbytes, hmsg]
    decide
  · simp only [stop, stop_message, hbytes, hmsg]
    decide

end SqliteBench
